import Mathlib

/-! Gazelle `fix` / `update` command (`cmd/gazelle/fix-update.go`)

A shallow embedding of `runFixUpdate` and its helpers.  Calls into the
collaborators that live outside this file (walker, language plugins, merger,
rule index, emitter) are recorded in a trace of `Event`s; their results are
supplied by an environment record, so every statement below is quantified over
all possible behaviours of those collaborators.
-/

deriving instance DecidableEq for Except

set_option linter.dupNamespace false

namespace Gazelle

/-! ## Path helpers from the Go standard library (Unix flavour) -/

/-- The path separator. -/
def Separator : Char := '/'

/-- Go `strings.HasPrefix`. -/
def HasPrefix (s pre : String) : Bool :=
  pre.data.isPrefixOf s.data

/-- Elements of a path: the pieces between separators. -/
def splitSep : List Char → List (List Char)
  | [] => [[]]
  | c :: cs =>
    if c = Separator then [] :: splitSep cs
    else
      match splitSep cs with
      | [] => [[c]]
      | w :: ws => (c :: w) :: ws

/-- The element loop of `filepath.Clean`: empty and `.` elements are skipped,
`..` removes the last element written (it is dropped at the root of a rooted
path and kept at the front of an unrooted one), other elements are written.
`out` is the output so far, last element first. -/
def cleanElems (rooted : Bool) : List (List Char) → List (List Char) → List (List Char)
  | out, [] => out.reverse
  | out, e :: es =>
    if e = [] ∨ e = ['.'] then cleanElems rooted out es
    else if e = ['.', '.'] then
      match out with
      | o :: out' =>
        if o = ['.', '.'] then cleanElems rooted (e :: out) es
        else cleanElems rooted out' es
      | [] => if rooted then cleanElems rooted [] es else cleanElems rooted [e] es
    else cleanElems rooted (e :: out) es

/-- Joins elements with the separator. -/
def joinSep : List (List Char) → List Char
  | [] => []
  | [e] => e
  | e :: es => e ++ Separator :: joinSep es

/-- Go `filepath.Clean`. -/
def Clean (path : String) : String :=
  if path.data = [] then "."
  else
    let rooted := path.data.head? = some Separator
    let body := joinSep (cleanElems rooted [] (splitSep path.data))
    let out := if rooted then Separator :: body else body
    if out = [] then "." else String.mk out

/-- The loop of `filepath.Rel` that positions both paths at their first
differing elements.  The arguments are `base[b0:]` and `targ[t0:]` at the start
of an iteration; the result is `(base[b0:bi], base[b0:], targ[t0:])` when the
loop is left. -/
def relLoop : Nat → List Char → List Char → List Char × List Char × List Char
  | 0, b, t => ([], b, t)
  | fuel + 1, b, t =>
    if b = [] ∨ t = [] then ([], b, t)
    else
      let bc := b.takeWhile (fun c => c ≠ Separator)
      let tc := t.takeWhile (fun c => c ≠ Separator)
      if tc ≠ bc then (bc, b, t)
      else
        relLoop fuel ((b.dropWhile (fun c => c ≠ Separator)).drop 1)
          ((t.dropWhile (fun c => c ≠ Separator)).drop 1)

/-- The `..` elements written by `filepath.Rel` when base elements are left:
`..` followed by `/..` for every separator in the rest of the base. -/
def dotdots : Nat → List Char
  | 0 => ['.', '.']
  | n + 1 => dotdots n ++ [Separator, '.', '.']

/-- Go `filepath.Rel`. -/
def Rel (basepath targpath : String) : Except String String :=
  let base := Clean basepath
  let targ := Clean targpath
  if targ = base then .ok "."
  else
    let base := if base = "." then [] else base.data
    let targ := targ.data
    let baseSlashed := base.head? = some Separator
    let targSlashed := targ.head? = some Separator
    if baseSlashed ≠ targSlashed then
      .error ("Rel: can't make " ++ targpath ++ " relative to " ++ basepath)
    else
      match relLoop (base.length + 1) base targ with
      | (bcur, brest, trest) =>
        if bcur = ['.', '.'] then
          .error ("Rel: can't make " ++ targpath ++ " relative to " ++ basepath)
        else if brest ≠ [] then
          let ups := dotdots (brest.count Separator)
          if trest ≠ [] then .ok (String.mk (ups ++ Separator :: trest))
          else .ok (String.mk ups)
        else .ok (String.mk trest)

/-- Go `filepath.Base`. -/
def Base (path : String) : String :=
  if path.data = [] then "."
  else
    let p := (path.data.reverse.dropWhile (fun c => c = Separator)).reverse
    let b := (p.reverse.takeWhile (fun c => c ≠ Separator)).reverse
    if b = [] then String.mk [Separator] else String.mk b

/-- Go `filepath.Join`: empty elements are ignored, the rest is joined with the
separator and cleaned; the result is empty when every element is. -/
def Join (elems : List String) : String :=
  match elems.filter (fun e => e ≠ "") with
  | [] => ""
  | es => Clean (String.mk (joinSep (es.map String.data)))

/-! ## `isDescendingDir` -/

def isDescendingDir (dir root : String) : Bool :=
  match Rel root dir with
  | .error _ => false
  | .ok rel =>
    if rel = "." then true
    else !(HasPrefix rel "..")

/-! ## Data model -/

/-- A build rule (`rule.Rule`): kind, name and attributes. -/
structure Rule where
  kind : String
  name : String
  attrs : List (String × String)
deriving DecidableEq, Repr

/-- The syntax tree of a build file (`bzl.File`). -/
structure BzlFile where
  Path : String
  Stmt : List String
deriving DecidableEq, Repr

/-- A build file with its rules (`rule.File`). -/
structure File where
  File : BzlFile
  Path : String
  Pkg : String
  Rules : List Rule
deriving DecidableEq, Repr

/-- Record `rule.LoadInfo`. -/
structure LoadInfo where
  Name : String
  Symbols : List String
deriving DecidableEq, Repr

/-- Record `repos.Repo` (the fields this file uses). -/
structure Repo where
  Name : String
  GoPrefix : String
deriving DecidableEq, Repr

/-- Record `label.Label`. -/
structure Label where
  Repo : String
  Pkg : String
  Name : String
deriving DecidableEq, Repr

/-- Go `label.New`. -/
def Label.New (repo pkg name : String) : Label := ⟨repo, pkg, name⟩

/-- The part of `config.Config` visible to every package.  The extension slot
`c.Exts[updateName]` is the separate record `updateConfig` below: its type is
private to this file, so no collaborator can read or write it. -/
structure Config where
  RepoRoot : String
  RepoName : String
  Dirs : List String
  ShouldFix : Bool
  ValidBuildFileNames : List String
  Exts : List (String × String)
deriving DecidableEq, Repr

/-- The three emitters of `modeFromName`. -/
inductive emitFunc
  | printFile
  | fixFile
  | diffFile
deriving DecidableEq, Repr

def modeFromName (mode : String) : Option emitFunc :=
  if mode = "print" then some .printFile
  else if mode = "fix" then some .fixFile
  else if mode = "diff" then some .diffFile
  else none

/-- The record `updateConfig`.  `emit` is assigned by `CheckFlags` before any
use, so the record is built there rather than in `RegisterFlags`. -/
structure updateConfig where
  emit : emitFunc
  outDir : String
  outSuffix : String
  repos : List Repo
deriving DecidableEq, Repr

/-- Modelled from the spec: the `command` type is declared outside this file;
`runFixUpdate` serves the two commands `update` and `fix`. -/
inductive command
  | updateCmd
  | fixCmd
deriving DecidableEq, Repr

def command.String : command → String
  | .updateCmd => "update"
  | .fixCmd => "fix"

/-- The rule index (`resolve.RuleIndex`) as far as the orchestration can see
it: the registrations made so far and whether `Finish` has been called. -/
structure RuleIndex where
  rules : List (Rule × File)
  finished : Bool
deriving DecidableEq, Repr

def NewRuleIndex : RuleIndex := ⟨[], false⟩

def RuleIndex.AddRule (ix : RuleIndex) (r : Rule) (f : File) : RuleIndex :=
  { ix with rules := ix.rules ++ [(r, f)] }

def RuleIndex.Finish (ix : RuleIndex) : RuleIndex :=
  { ix with finished := true }

/-- The two merge phases of `merger.MergeFile`. -/
inductive Phase
  | PreResolve
  | PostResolve
deriving DecidableEq, Repr

/-- Metadata of a rule kind (`rule.KindInfo`), kept abstract. -/
abbrev KindInfo := Nat

/-- A Go map with string keys: the latest binding of a key wins. -/
abbrev GoMap (V : Type) := List (String × V)

def GoMap.set {V : Type} (m : GoMap V) (k : String) (v : V) : GoMap V := (k, v) :: m

def GoMap.get {V : Type} (m : GoMap V) (k : String) : Option V := List.lookup k m

/-- The flag set after a successful `fs.Parse`: the values of the flags this
file registers and the positional arguments `fs.Args()`. -/
structure FlagSet where
  mode : String
  outDir : String
  outSuffix : String
  knownImports : List String
  Args : List String
deriving DecidableEq, Repr

structure visitRecord where
  pkgRel : String
  rules : List Rule
  empty : List Rule
  file : File
deriving DecidableEq, Repr

/-- One invocation of the walk callback. -/
structure WalkCall where
  dir : String
  rel : String
  c : Config
  update : Bool
  f : Option File
  subdirs : List String
  regularFiles : List String
  genFiles : List String
deriving DecidableEq, Repr

/-- Calls made by `runFixUpdate` into its collaborators, with their arguments.
Language plugins are named by their position in `languages`. -/
inductive Event
  | Parse (args : List String)
  | LoadFile (path : String)
  | fixWorkspace (c : Config) (workspace : File)
  | FixWorkspace (workspace : File)
  | FixLoads (f : File) (loads : List LoadInfo)
  | CheckGazelleLoaded (workspace : File)
  | Sync (f : File)
  | Rewrite (f : BzlFile)
  | Emit (e : emitFunc) (c : Config) (f : BzlFile) (path : String)
  | LogPrint (err : String)
  | CheckRulesGoVersion (repoRoot : String)
  | Walk (c : Config)
  | AddRule (c : Config) (r : Rule) (f : File)
  | Fix (lang : Nat) (c : Config) (f : File)
  | GenerateRules (lang : Nat) (c : Config) (dir rel : String) (f : Option File)
      (subdirs regularFiles genFiles : List String) (otherEmpty otherGen : List Rule)
  | Insert (r : Rule) (f : File)
  | MergeFile (f : File) (empty gen : List Rule) (phase : Phase) (kinds : GoMap KindInfo)
  | Finish
  | Resolve (lang : Nat) (c : Config) (ix : RuleIndex) (rc : List Repo) (r : Rule)
      (src : Label)
deriving DecidableEq, Repr

/-- A language plugin (the `language.Language` interface). -/
structure Language where
  Kinds : List (String × KindInfo)
  Loads : List LoadInfo
  RegisterFlags : String → Config → Config
  CheckFlags : Config → Except String Config
  Fix : Config → File → File
  GenerateRules : Config → String → String → Option File → List String → List String →
    List String → List Rule → List Rule → List Rule × List Rule
  Resolve : Config → RuleIndex → List Repo → Rule → Label → Rule

/-- Result of `rule.LoadFile` followed by the `os.IsNotExist` test. -/
inductive LoadResult
  | ok (f : File)
  | notExist
  | failed (err : String)
deriving DecidableEq, Repr

/-- The collaborators of `runFixUpdate` that live outside this file. -/
structure Env where
  languages : List Language
  ConfigNew : Config
  Parse : List String → Option FlagSet
  CommonRegisterFlags : String → Config → Config
  CommonCheckFlags : Config → Except String Config
  Abs : String → Except String String
  EvalSymlinks : String → Except String String
  LoadFile : String → LoadResult
  ListRepositories : File → List Repo
  ImportPathToBazelRepoName : String → String
  FixWorkspace : File → File
  FixLoads : File → List LoadInfo → File
  CheckGazelleLoaded : File → Option String
  Sync : File → File
  Rewrite : BzlFile → BzlFile
  emit : emitFunc → Config → BzlFile → String → Option String
  Walk : Config → List WalkCall
  DefaultBuildFileName : Config → String
  EmptyFile : String → File
  Insert : Rule → File → File
  MergeFile : File → List Rule → List Rule → Phase → GoMap KindInfo → File

/-- How a run ends: `runFixUpdate` returns (with or without an error), the
process exits inside flag parsing, or a call through a nil resolver panics. -/
inductive Outcome
  | returned (err : Option String)
  | exited
  | panicked
deriving DecidableEq, Repr

/-- The mutable state of a run: the trace of collaborator calls, the rule
index and the visit records. -/
structure RunState where
  trace : List Event
  ruleIndex : RuleIndex
  visits : List visitRecord
deriving DecidableEq, Repr

def RunState.log (st : RunState) (e : Event) : RunState :=
  { st with trace := st.trace ++ [e] }

/-! ## The update configurer -/

/-- Go `%q` for a string without characters that need escaping. -/
def quote (s : String) : String := "\"" ++ s ++ "\""

/-- Body of `updateConfigurer.RegisterFlags`: `c.ShouldFix = cmd == "fix"`.
The flag defaults (`-mode fix`, empty output directory and suffix) are part of
the flag set. -/
def updateConfigurer.RegisterFlags (cmd : String) (c : Config) : Config :=
  { c with ShouldFix := cmd = "fix" }

/-- The loop over `c.Dirs` in `updateConfigurer.CheckFlags`. -/
def checkDirs (env : Env) (repoRoot : String) : List String → Except String (List String)
  | [] => .ok []
  | d :: ds =>
    match env.Abs d with
    | .error err => .error (d ++ ": failed to find absolute path: " ++ err)
    | .ok dir =>
      match env.EvalSymlinks dir with
      | .error err => .error (d ++ ": failed to resolve symlinks: " ++ err)
      | .ok dir =>
        if !isDescendingDir dir repoRoot then
          .error ("dir " ++ quote dir ++ " is not a subdirectory of repo root " ++ quote repoRoot)
        else
          match checkDirs env repoRoot ds with
          | .error err => .error err
          | .ok dirs => .ok (dir :: dirs)

def updateConfigurer.CheckFlags (env : Env) (fs : FlagSet) (c : Config) :
    Except String (Config × updateConfig) :=
  match modeFromName fs.mode with
  | none => .error ("unrecognized emit mode: " ++ quote fs.mode)
  | some emit =>
    let dirs := if fs.Args.length = 0 then ["."] else fs.Args
    match checkDirs env c.RepoRoot dirs with
    | .error err => .error err
    | .ok dirs => .ok ({ c with Dirs := dirs }, ⟨emit, fs.outDir, fs.outSuffix, []⟩)

def genericLoads : List LoadInfo :=
  [⟨"@bazel_gazelle//:def.bzl", ["gazelle"]⟩]

/-! ## The workspace fix -/

def fixWorkspace (env : Env) (c : Config) (uc : updateConfig) (workspace : File)
    (loads : List LoadInfo) (st : RunState) : RunState × File × Option String :=
  let st := st.log (.fixWorkspace c workspace)
  if !c.ShouldFix then (st, workspace, none)
  else
    let shouldFix := c.Dirs.foldl (fun acc d => if d = c.RepoRoot then true else acc) false
    if !shouldFix then (st, workspace, none)
    else
      let st := st.log (.FixWorkspace workspace)
      let workspace := env.FixWorkspace workspace
      let st := st.log (.FixLoads workspace loads)
      let workspace := env.FixLoads workspace loads
      let st := st.log (.CheckGazelleLoaded workspace)
      match env.CheckGazelleLoaded workspace with
      | some err => (st, workspace, some err)
      | none =>
        let st := st.log (.Sync workspace)
        let workspace := env.Sync workspace
        let st := st.log (.Emit uc.emit c workspace.File workspace.Path)
        (st, workspace, env.emit uc.emit c workspace.File workspace.Path)

def findWorkspaceName (f : File) : String :=
  match f.Rules.find? (fun r => r.kind = "workspace") with
  | some r => r.name
  | none => ""

/-! ## Configuration assembly -/

/-- Result of `newFixUpdateConfiguration`. -/
inductive ConfigResult
  | ok (c : Config) (uc : updateConfig)
  | failed (err : String)
  | exited
deriving DecidableEq, Repr

/-- The `CheckFlags` loop over the language plugins (the tail of `cexts`). -/
def checkLanguages : List Language → Config → Except String Config
  | [], c => .ok c
  | l :: ls, c =>
    match l.CheckFlags c with
    | .error err => .error err
    | .ok c => checkLanguages ls c

/-- The repositories added for `-known_import` values. -/
def addKnownImports (env : Env) (repos : List Repo) (knownImports : List String) : List Repo :=
  repos ++ (knownImports.filter (fun imp => !(repos.map Repo.GoPrefix).contains imp)).map
    (fun imp => ⟨env.ImportPathToBazelRepoName imp, imp⟩)

/-- The loop `for _, cext := range cexts { cext.RegisterFlags(fs, cmd.String(), c) }`
on the configuration made by `config.New()`.  `cexts` is the common
configurer, the update configurer and the language plugins, in this order; the
loop is written out for the first two elements. -/
def registerFlags (env : Env) (cmd : command) : Config :=
  let c := env.ConfigNew
  let c := env.CommonRegisterFlags cmd.String c
  let c := updateConfigurer.RegisterFlags cmd.String c
  env.languages.foldl (fun c l => l.RegisterFlags cmd.String c) c

/-- The loop `for _, cext := range cexts { cext.CheckFlags(fs, c) }`, written
out in the same way; it stops at the first error. -/
def checkFlags (env : Env) (fs : FlagSet) (c : Config) : Except String (Config × updateConfig) :=
  match env.CommonCheckFlags c with
  | .error err => .error err
  | .ok c =>
    match updateConfigurer.CheckFlags env fs c with
    | .error err => .error err
    | .ok (c, uc) =>
      match checkLanguages env.languages c with
      | .error err => .error err
      | .ok c => .ok (c, uc)

def newFixUpdateConfiguration (env : Env) (cmd : command) (args : List String)
    (loads : List LoadInfo) (st : RunState) : RunState × ConfigResult :=
  let c := registerFlags env cmd
  let st := st.log (.Parse args)
  match env.Parse args with
  | none => (st, .exited)
  | some fs =>
    match checkFlags env fs c with
    | .error err => (st, .failed err)
    | .ok (c, uc) =>
      let workspacePath := Join [c.RepoRoot, "WORKSPACE"]
      let st := st.log (.LoadFile workspacePath)
      match env.LoadFile workspacePath with
      | .failed err => (st, .failed err)
      | .notExist =>
        (st, .ok c { uc with repos := addKnownImports env uc.repos fs.knownImports })
      | .ok workspace =>
        match fixWorkspace env c uc workspace loads st with
        | (st, _, some err) => (st, .failed err)
        | (st, workspace, none) =>
          let c := { c with RepoName := findWorkspaceName workspace }
          let uc := { uc with repos := env.ListRepositories workspace }
          (st, .ok c { uc with repos := addKnownImports env uc.repos fs.knownImports })

/-! ## The walk callback -/

/-- The loop `for _, r := range f.Rules { ruleIndex.AddRule(c, r, f) }`. -/
def addRules (c : Config) (f : File) : List Rule → RunState → RunState
  | [], st => st
  | r :: rs, st =>
    addRules c f rs { st.log (.AddRule c r f) with ruleIndex := st.ruleIndex.AddRule r f }

/-- The loop `for _, l := range languages { l.Fix(c, f) }`; `i` is the position
of the next plugin. -/
def fixLoop (c : Config) : Nat → List Language → File → RunState → File × RunState
  | _, [], f, st => (f, st)
  | i, l :: ls, f, st => fixLoop c (i + 1) ls (l.Fix c f) (st.log (.Fix i c f))

/-- The loop over `languages` that calls `GenerateRules` and accumulates
`empty` and `gen`. -/
def generateLoop (w : WalkCall) (f : Option File) :
    Nat → List Language → List Rule → List Rule → RunState →
      List Rule × List Rule × RunState
  | _, [], empty, gen, st => (empty, gen, st)
  | i, l :: ls, empty, gen, st =>
    let res := l.GenerateRules w.c w.dir w.rel f w.subdirs w.regularFiles w.genFiles empty gen
    generateLoop w f (i + 1) ls (empty ++ res.1) (gen ++ res.2)
      (st.log (.GenerateRules i w.c w.dir w.rel f w.subdirs w.regularFiles w.genFiles empty gen))

/-- The loop `for _, r := range gen { r.Insert(f) }`. -/
def insertLoop (env : Env) : List Rule → File → RunState → File × RunState
  | [], f, st => (f, st)
  | r :: rs, f, st => insertLoop env rs (env.Insert r f) (st.log (.Insert r f))

/-- The "fix any problems in the file" step of the callback. -/
def fixStep (env : Env) (w : WalkCall) (st : RunState) : Option File × RunState :=
  match w.f with
  | some f => ((fixLoop w.c 0 env.languages f st).1, (fixLoop w.c 0 env.languages f st).2)
  | none => (none, st)

/-- The "insert or merge rules into the build file" step of the callback. -/
def mergeStep (env : Env) (kinds : GoMap KindInfo) (w : WalkCall) (f : Option File)
    (empty gen : List Rule) (st : RunState) : File × RunState :=
  match f with
  | none => insertLoop env gen (env.EmptyFile (Join [w.dir, env.DefaultBuildFileName w.c])) st
  | some f =>
    (env.MergeFile f empty gen .PreResolve kinds, st.log (.MergeFile f empty gen .PreResolve kinds))

/-- The function literal passed to `walk.Walk`. -/
def walkFunc (env : Env) (kinds : GoMap KindInfo) (st : RunState) (w : WalkCall) : RunState :=
  if !w.update then
    match w.f with
    | some f => addRules w.c f f.Rules st
    | none => st
  else
    let fixed := fixStep env w st
    let generated := generateLoop w fixed.1 0 env.languages [] [] fixed.2
    let empty := generated.1
    let gen := generated.2.1
    if fixed.1 = none ∧ gen.length = 0 then generated.2.2
    else
      let merged := mergeStep env kinds w fixed.1 empty gen generated.2.2
      let st := { merged.2 with visits := merged.2.visits ++ [⟨w.rel, gen, empty, merged.1⟩] }
      addRules w.c merged.1 merged.1.Rules st

/-! ## Resolution and emission -/

/-- The tables built by the loop over `languages` at the start of
`runFixUpdate`. -/
structure LangTables where
  kindToResolver : GoMap (Nat × Language)
  kinds : GoMap KindInfo
  loads : List LoadInfo

/-- The inner loop `for kind, info := range lang.Kinds()`. -/
def addKinds (i : Nat) (lang : Language) : List (String × KindInfo) → LangTables → LangTables
  | [], t => t
  | (kind, info) :: ks, t =>
    addKinds i lang ks
      { t with
        kindToResolver := t.kindToResolver.set kind (i, lang),
        kinds := t.kinds.set kind info }

/-- The loop `for _, lang := range languages`. -/
def langTables : Nat → List Language → LangTables → LangTables
  | _, [], t => t
  | i, lang :: ls, t =>
    let t := addKinds i lang lang.Kinds t
    langTables (i + 1) ls { t with loads := t.loads ++ lang.Loads }

/-- The loop `for _, r := range v.rules` of the resolution phase.  A kind
without a resolver yields a nil interface value, and the call through it
panics: the result is then `none`, with the state reached so far. -/
def resolveRules (c : Config) (rc : List Repo) (kindToResolver : GoMap (Nat × Language))
    (pkgRel : String) : List Rule → RunState → RunState × Option (List Rule)
  | [], st => (st, some [])
  | r :: rs, st =>
    let src := Label.New c.RepoName pkgRel r.name
    match kindToResolver.get r.kind with
    | none => (st, none)
    | some (i, l) =>
      match resolveRules c rc kindToResolver pkgRel rs
          (st.log (.Resolve i c st.ruleIndex rc r src)) with
      | (st', none) => (st', none)
      | (st', some rs') => (st', some (l.Resolve c st.ruleIndex rc r src :: rs'))

/-- The loop `for _, v := range visits` of the resolution phase.  The rules
and the file of a record are shared by reference in the source; here the
records are returned with the resolved rules and the merged file. -/
def resolveLoop (env : Env) (c : Config) (rc : List Repo)
    (kindToResolver : GoMap (Nat × Language)) (kinds : GoMap KindInfo) :
    List visitRecord → RunState → RunState × Option (List visitRecord)
  | [], st => (st, some [])
  | v :: vs, st =>
    match resolveRules c rc kindToResolver v.pkgRel v.rules st with
    | (st1, none) => (st1, none)
    | (st1, some rules) =>
      let file := env.MergeFile v.file v.empty rules .PostResolve kinds
      match resolveLoop env c rc kindToResolver kinds vs
          (st1.log (.MergeFile v.file v.empty rules .PostResolve kinds)) with
      | (st2, none) => (st2, none)
      | (st2, some vs') => (st2, some ({ v with rules := rules, file := file } :: vs'))

/-- The destination path computed in the emission loop. -/
def emitPath (uc : updateConfig) (pkgRel : String) (file : File) : String :=
  if uc.outDir ≠ "" then
    Join [uc.outDir, pkgRel, Base file.Path ++ uc.outSuffix]
  else file.Path

/-- The file of a visit record after `merger.FixLoads`, `Sync` and
`bzl.Rewrite`. -/
def formatFile (env : Env) (loads : List LoadInfo) (file : File) : File :=
  { env.Sync (env.FixLoads file loads) with
    File := env.Rewrite (env.Sync (env.FixLoads file loads)).File }

/-- The loop `for _, v := range visits` of the emission phase. -/
def emitLoop (env : Env) (c : Config) (uc : updateConfig) (loads : List LoadInfo) :
    List visitRecord → RunState → RunState
  | [], st => st
  | v :: vs, st =>
    let st := st.log (.FixLoads v.file loads)
    let file := env.FixLoads v.file loads
    let st := st.log (.Sync file)
    let file := env.Sync file
    let st := st.log (.Rewrite file.File)
    let file := { file with File := env.Rewrite file.File }
    let path := emitPath uc v.pkgRel file
    let st := st.log (.Emit uc.emit c file.File path)
    match env.emit uc.emit c file.File path with
    | some err => emitLoop env c uc loads vs (st.log (.LogPrint err))
    | none => emitLoop env c uc loads vs st

/-! ## `runFixUpdate` -/

/-- The state after the walk: `walk.Walk` runs the callback once for every
directory it delivers. -/
def walkPhase (env : Env) (kinds : GoMap KindInfo) (c : Config) (st : RunState) : RunState :=
  (env.Walk c).foldl (walkFunc env kinds) (st.log (.Walk c))

/-- The tables `kindToResolver`, `kinds` and `loads` of a run. -/
def tables (env : Env) : LangTables :=
  langTables 0 env.languages ⟨[], [], genericLoads⟩

/-- The state at the start of a run: nothing called, `resolve.NewRuleIndex`, no
visit record. -/
def initState : RunState := ⟨[], NewRuleIndex, []⟩

def runFixUpdate (env : Env) (cmd : command) (args : List String) : RunState × Outcome :=
  let t := tables env
  let st := initState
  match newFixUpdateConfiguration env cmd args t.loads st with
  | (st, .exited) => (st, .exited)
  | (st, .failed err) => (st, .returned (some err))
  | (st, .ok c uc) =>
    let st := if cmd = .fixCmd then st.log (.CheckRulesGoVersion c.RepoRoot) else st
    let st := walkPhase env t.kinds c st
    let st := { st.log .Finish with ruleIndex := st.ruleIndex.Finish }
    match resolveLoop env c uc.repos t.kindToResolver t.kinds st.visits st with
    | (st, none) => (st, .panicked)
    | (st, some visits) =>
      let st := emitLoop env c uc t.loads visits { st with visits := visits }
      (st, .returned none)

/-! ## Definitions used in the statements -/

/-- The file after the `Fix` calls of the plugins `ls`, in order. -/
def fixedBy (c : Config) (ls : List Language) (f : File) : File :=
  ls.foldl (fun f l => l.Fix c f) f

/-- The results returned by the `GenerateRules` calls of the plugins `ls`, in
order, when the rules accumulated before them are `empty` and `gen`. -/
def generateResults (w : WalkCall) (f : Option File) :
    List Language → List Rule → List Rule → List (List Rule × List Rule)
  | [], _, _ => []
  | l :: ls, empty, gen =>
    let res := l.GenerateRules w.c w.dir w.rel f w.subdirs w.regularFiles w.genFiles empty gen
    res :: generateResults w f ls (empty ++ res.1) (gen ++ res.2)

/-- The `Insert` calls of the loop over `gen`. -/
def insertEvents (env : Env) : List Rule → File → List Event
  | [], _ => []
  | r :: rs, f => Event.Insert r f :: insertEvents env rs (env.Insert r f)

/-- An element of a cleaned path: not empty, without separator, and neither
`.` nor `..`. -/
def goodElem (e : List Char) : Prop :=
  e ≠ [] ∧ Separator ∉ e ∧ e ≠ ['.'] ∧ e ≠ ['.', '.']

/-- The cleaned absolute path with the given elements (`/` when there is
none). -/
def absPath (es : List (List Char)) : String :=
  String.mk (Separator :: joinSep es)

/-- The build file of a directory after the plugins' fixes (none when the
directory has no build file). -/
def fixedFile (env : Env) (w : WalkCall) : Option File :=
  w.f.map (fixedBy w.c env.languages)

/-- The results of the plugins' `GenerateRules` calls in a directory. -/
def pluginResults (env : Env) (w : WalkCall) : List (List Rule × List Rule) :=
  generateResults w (fixedFile env w) env.languages [] []

/-- The empty rules of a directory: the concatenation of the plugins' results. -/
def emptyRules (env : Env) (w : WalkCall) : List Rule :=
  ((pluginResults env w).map Prod.fst).flatten

/-- The generated rules of a directory: the concatenation of the plugins'
results. -/
def genRules (env : Env) (w : WalkCall) : List Rule :=
  ((pluginResults env w).map Prod.snd).flatten

/-- A directory gets a visit record: it is in scope and has an existing build
file or at least one generated rule. -/
def recorded (env : Env) (w : WalkCall) : Bool :=
  w.update && (w.f.isSome || !(genRules env w).isEmpty)

/-- The build file of a recorded directory after the pre-resolve merge (or, for
a new file, after the insertion of the generated rules). -/
def mergedFile (env : Env) (kinds : GoMap KindInfo) (w : WalkCall) : File :=
  match fixedFile env w with
  | none =>
    (genRules env w).foldl (fun f r => env.Insert r f)
      (env.EmptyFile (Join [w.dir, env.DefaultBuildFileName w.c]))
  | some f => env.MergeFile f (emptyRules env w) (genRules env w) .PreResolve kinds

/-- The visit record of a recorded directory. -/
def recordOf (env : Env) (kinds : GoMap KindInfo) (w : WalkCall) : visitRecord :=
  ⟨w.rel, genRules env w, emptyRules env w, mergedFile env kinds w⟩

/-- The `Fix` calls of the callback in an in-scope directory. -/
def fixEvents (env : Env) (w : WalkCall) : List Event :=
  match w.f with
  | none => []
  | some f =>
    (List.range env.languages.length).map
      (fun k => Event.Fix k w.c (fixedBy w.c (env.languages.take k) f))

/-- The `GenerateRules` calls of the callback in an in-scope directory. -/
def generateEvents (env : Env) (w : WalkCall) : List Event :=
  (List.range env.languages.length).map (fun k =>
    Event.GenerateRules k w.c w.dir w.rel (fixedFile env w) w.subdirs w.regularFiles w.genFiles
      ((((pluginResults env w).take k).map Prod.fst).flatten)
      ((((pluginResults env w).take k).map Prod.snd).flatten))

/-- The calls of the callback that put the generated rules into the file. -/
def mergeEvents (env : Env) (kinds : GoMap KindInfo) (w : WalkCall) : List Event :=
  match fixedFile env w with
  | none =>
    insertEvents env (genRules env w) (env.EmptyFile (Join [w.dir, env.DefaultBuildFileName w.c]))
  | some f => [Event.MergeFile f (emptyRules env w) (genRules env w) .PreResolve kinds]

/-- The rules a directory registers in the index, with their file. -/
def indexedRules (env : Env) (kinds : GoMap KindInfo) (w : WalkCall) : List (Rule × File) :=
  if w.update then
    if recorded env w then
      (mergedFile env kinds w).Rules.map (fun r => (r, mergedFile env kinds w))
    else []
  else
    match w.f with
    | some f => f.Rules.map (fun r => (r, f))
    | none => []

/-- The calls made by one invocation of the callback. -/
def walkEvents (env : Env) (kinds : GoMap KindInfo) (w : WalkCall) : List Event :=
  if w.update then
    fixEvents env w ++ generateEvents env w ++
      (if recorded env w then
        mergeEvents env kinds w ++
          (mergedFile env kinds w).Rules.map (fun r => Event.AddRule w.c r (mergedFile env kinds w))
      else [])
  else
    match w.f with
    | some f => f.Rules.map (fun r => Event.AddRule w.c r f)
    | none => []

/-- The `Resolve` call made for a rule (none when its kind has no resolver). -/
def resolveEvent (c : Config) (ix : RuleIndex) (rc : List Repo)
    (kindToResolver : GoMap (Nat × Language)) (pkgRel : String) (r : Rule) : List Event :=
  match kindToResolver.get r.kind with
  | some (i, _) => [Event.Resolve i c ix rc r (Label.New c.RepoName pkgRel r.name)]
  | none => []

/-- A rule after its `Resolve` call. -/
def resolved (c : Config) (ix : RuleIndex) (rc : List Repo)
    (kindToResolver : GoMap (Nat × Language)) (pkgRel : String) (r : Rule) : Rule :=
  match kindToResolver.get r.kind with
  | some (_, l) => l.Resolve c ix rc r (Label.New c.RepoName pkgRel r.name)
  | none => r

/-- The kind of the rule has a resolver. -/
def hasResolver (kindToResolver : GoMap (Nat × Language)) (r : Rule) : Bool :=
  (kindToResolver.get r.kind).isSome

/-- A record after the resolution of its rules and the post-resolve merge. -/
def resolvedRecord (env : Env) (c : Config) (ix : RuleIndex) (rc : List Repo)
    (kindToResolver : GoMap (Nat × Language)) (kinds : GoMap KindInfo) (v : visitRecord) :
    visitRecord :=
  { v with
    rules := v.rules.map (resolved c ix rc kindToResolver v.pkgRel),
    file := env.MergeFile v.file v.empty (v.rules.map (resolved c ix rc kindToResolver v.pkgRel))
      .PostResolve kinds }

/-- The calls of the resolution phase for one record: a `Resolve` call for
every generated rule, in order, then the post-resolve merge. -/
def resolutionEvents (c : Config) (ix : RuleIndex) (rc : List Repo)
    (kindToResolver : GoMap (Nat × Language)) (kinds : GoMap KindInfo) (v : visitRecord) :
    List Event :=
  v.rules.flatMap (resolveEvent c ix rc kindToResolver v.pkgRel) ++
    [Event.MergeFile v.file v.empty (v.rules.map (resolved c ix rc kindToResolver v.pkgRel))
      .PostResolve kinds]

/-- A call of the resolution phase: `Resolve` on the index `ix`, or the
post-resolve merge. -/
def isResolutionEvent (ix : RuleIndex) (e : Event) : Prop :=
  (∃ i c rc r src, e = Event.Resolve i c ix rc r src) ∨
    (∃ f empty gen kinds, e = Event.MergeFile f empty gen .PostResolve kinds)

/-- The calls of the emission loop for one record. -/
def emissionEvents (env : Env) (c : Config) (uc : updateConfig) (loads : List LoadInfo)
    (v : visitRecord) : List Event :=
  [Event.FixLoads v.file loads,
    Event.Sync (env.FixLoads v.file loads),
    Event.Rewrite (env.Sync (env.FixLoads v.file loads)).File,
    Event.Emit uc.emit c (formatFile env loads v.file).File
      (emitPath uc v.pkgRel (formatFile env loads v.file))] ++
  (match env.emit uc.emit c (formatFile env loads v.file).File
      (emitPath uc v.pkgRel (formatFile env loads v.file)) with
    | some err => [Event.LogPrint err]
    | none => [])

/-- The workspace file after `merger.FixWorkspace` and `merger.FixLoads`. -/
def fixedWorkspace (env : Env) (workspace : File) (loads : List LoadInfo) : File :=
  env.FixLoads (env.FixWorkspace workspace) loads

/-- The calls made by `fixWorkspace` after its entry. -/
def workspaceFixCalls (env : Env) (c : Config) (uc : updateConfig) (workspace : File)
    (loads : List LoadInfo) : List Event :=
  if c.ShouldFix = true ∧ c.RepoRoot ∈ c.Dirs then
    [Event.FixWorkspace workspace, Event.FixLoads (env.FixWorkspace workspace) loads,
      Event.CheckGazelleLoaded (fixedWorkspace env workspace loads)] ++
    (match env.CheckGazelleLoaded (fixedWorkspace env workspace loads) with
      | some _ => []
      | none =>
        [Event.Sync (fixedWorkspace env workspace loads),
          Event.Emit uc.emit c (env.Sync (fixedWorkspace env workspace loads)).File
            (env.Sync (fixedWorkspace env workspace loads)).Path])
  else []

/-- The error returned by `fixWorkspace`, if any. -/
def workspaceFixError (env : Env) (c : Config) (uc : updateConfig) (workspace : File)
    (loads : List LoadInfo) : Option String :=
  if c.ShouldFix = true ∧ c.RepoRoot ∈ c.Dirs then
    match env.CheckGazelleLoaded (fixedWorkspace env workspace loads) with
    | some err => some err
    | none =>
      env.emit uc.emit c (env.Sync (fixedWorkspace env workspace loads)).File
        (env.Sync (fixedWorkspace env workspace loads)).Path
  else none

/-- The workspace file when `fixWorkspace` returns. -/
def workspaceAfterFix (env : Env) (c : Config) (workspace : File) (loads : List LoadInfo) :
    File :=
  if c.ShouldFix = true ∧ c.RepoRoot ∈ c.Dirs then
    match env.CheckGazelleLoaded (fixedWorkspace env workspace loads) with
    | some _ => fixedWorkspace env workspace loads
    | none => env.Sync (fixedWorkspace env workspace loads)
  else workspace

/-- The calls made by `newFixUpdateConfiguration`. -/
def configEvents (env : Env) (cmd : command) (args : List String) (loads : List LoadInfo) :
    List Event :=
  Event.Parse args ::
    (match env.Parse args with
      | none => []
      | some fs =>
        match checkFlags env fs (registerFlags env cmd) with
        | .error _ => []
        | .ok (c, uc) =>
          Event.LoadFile (Join [c.RepoRoot, "WORKSPACE"]) ::
            (match env.LoadFile (Join [c.RepoRoot, "WORKSPACE"]) with
              | .ok workspace =>
                Event.fixWorkspace c workspace :: workspaceFixCalls env c uc workspace loads
              | _ => []))

/-- The result of `newFixUpdateConfiguration`. -/
def configOutcome (env : Env) (cmd : command) (args : List String) (loads : List LoadInfo) :
    ConfigResult :=
  match env.Parse args with
  | none => .exited
  | some fs =>
    match checkFlags env fs (registerFlags env cmd) with
    | .error err => .failed err
    | .ok (c, uc) =>
      match env.LoadFile (Join [c.RepoRoot, "WORKSPACE"]) with
      | .failed err => .failed err
      | .notExist => .ok c { uc with repos := addKnownImports env uc.repos fs.knownImports }
      | .ok workspace =>
        match workspaceFixError env c uc workspace loads with
        | some err => .failed err
        | none =>
          .ok { c with RepoName := findWorkspaceName (workspaceAfterFix env c workspace loads) }
            { uc with
              repos := addKnownImports env
                (env.ListRepositories (workspaceAfterFix env c workspace loads)) fs.knownImports }

/-- The calls of a run up to the end of the walk, when the configuration is
`c`. -/
def walkTrace (env : Env) (cmd : command) (args : List String) (c : Config) : List Event :=
  configEvents env cmd args (tables env).loads ++
    (if cmd = .fixCmd then [Event.CheckRulesGoVersion c.RepoRoot] else []) ++
    Event.Walk c :: (env.Walk c).flatMap (walkEvents env (tables env).kinds)

/-- The visit records at the end of the walk. -/
def walkVisits (env : Env) (c : Config) : List visitRecord :=
  ((env.Walk c).filter (recorded env)).map (recordOf env (tables env).kinds)

/-- The rule index after `Finish`. -/
def finishedIndex (env : Env) (c : Config) : RuleIndex :=
  ⟨(env.Walk c).flatMap (indexedRules env (tables env).kinds), true⟩

def Event.isAddRule : Event → Bool
  | .AddRule _ _ _ => true
  | _ => false

def Event.isFinish : Event → Bool
  | .Finish => true
  | _ => false

def Event.isResolve : Event → Bool
  | .Resolve _ _ _ _ _ _ => true
  | _ => false

def Event.isEmit : Event → Bool
  | .Emit _ _ _ _ => true
  | _ => false

def Event.isWalk : Event → Bool
  | .Walk _ => true
  | _ => false

def Event.isFixWorkspace : Event → Bool
  | .fixWorkspace _ _ => true
  | _ => false

def Event.isFix : Event → Bool
  | .Fix _ _ _ => true
  | _ => false

def Event.isGenerateRules : Event → Bool
  | .GenerateRules _ _ _ _ _ _ _ _ _ _ => true
  | _ => false

def Event.isMergeFile : Event → Bool
  | .MergeFile _ _ _ _ _ => true
  | _ => false

/-- Calls made while the configuration is assembled. -/
def Event.inConfig : Event → Bool
  | .Parse _ => true
  | .LoadFile _ => true
  | .fixWorkspace _ _ => true
  | .FixWorkspace _ => true
  | .FixLoads _ _ => true
  | .CheckGazelleLoaded _ => true
  | .Sync _ => true
  | .Emit _ _ _ _ => true
  | _ => false

/-- Calls made by the walk callback. -/
def Event.inWalk : Event → Bool
  | .AddRule _ _ _ => true
  | .Fix _ _ _ => true
  | .GenerateRules _ _ _ _ _ _ _ _ _ _ => true
  | .Insert _ _ => true
  | .MergeFile _ _ _ .PreResolve _ => true
  | _ => false

/-- Calls made by the emission loop. -/
def Event.inEmission : Event → Bool
  | .FixLoads _ _ => true
  | .Sync _ => true
  | .Rewrite _ => true
  | .Emit _ _ _ _ => true
  | .LogPrint _ => true
  | _ => false

/-- The registrations in a trace: the arguments of its `AddRule` calls. -/
def registrations (tr : List Event) : List (Rule × File) :=
  tr.filterMap (fun e => match e with
    | .AddRule _ r f => some (r, f)
    | _ => none)

/-- A plugin that owns the kind `go_library` and generates one rule for every
kind in `genKinds`. -/
def demoLang (genKinds : List String) : Language where
  Kinds := [("go_library", 1)]
  Loads := [⟨"@io_bazel_rules_go//go:def.bzl", ["go_library"]⟩]
  RegisterFlags := fun _ c => c
  CheckFlags := fun c => .ok c
  Fix := fun _ f => f
  GenerateRules := fun _ _ _ _ _ _ _ _ _ => ([], genKinds.map (fun k => ⟨k, "lib", []⟩))
  Resolve := fun _ ix _ r _ => { r with attrs := [("deps", toString ix.rules.length)] }

/-- The build file of the repository root. -/
def demoBuild : File :=
  ⟨⟨"/repo/BUILD", ["go_library"]⟩, "/repo/BUILD", "", [⟨"go_library", "old", []⟩]⟩

/-- The build file of an out-of-scope directory. -/
def demoVendor : File :=
  ⟨⟨"/repo/vendor/BUILD", ["go_library"]⟩, "/repo/vendor/BUILD", "vendor",
    [⟨"go_library", "dep", []⟩]⟩

/-- The workspace file. -/
def demoWorkspace : File :=
  ⟨⟨"/repo/WORKSPACE", ["workspace"]⟩, "/repo/WORKSPACE", "", [⟨"workspace", "demo", []⟩]⟩

/-- A repository `/repo` with an in-scope root directory, an out-of-scope
`vendor` directory and an in-scope directory `new` without a build file.
`mode` is the value of `-mode`, `emitFails` makes every emitter call fail, and
`genKinds` are the kinds of the rules the plugin generates. -/
def demoEnv (mode : String) (emitFails : Bool) (genKinds : List String) : Env where
  languages := [demoLang genKinds]
  ConfigNew := ⟨"/repo", "", [], false, ["BUILD"], []⟩
  Parse := fun args => some ⟨mode, "", "", [], args⟩
  CommonRegisterFlags := fun _ c => c
  CommonCheckFlags := fun c => .ok c
  Abs := fun d => .ok d
  EvalSymlinks := fun d => .ok d
  LoadFile := fun _ => .ok demoWorkspace
  ListRepositories := fun _ => []
  ImportPathToBazelRepoName := fun imp => imp
  FixWorkspace := fun f => f
  FixLoads := fun f _ => f
  CheckGazelleLoaded := fun _ => none
  Sync := fun f => f
  Rewrite := fun f => f
  emit := fun _ _ _ path => if emitFails then some ("cannot write " ++ path) else none
  Walk := fun c =>
    [⟨"/repo", "", c, true, some demoBuild, ["vendor", "new"], ["a.go"], []⟩,
      ⟨"/repo/vendor", "vendor", c, false, some demoVendor, [], ["v.go"], []⟩,
      ⟨"/repo/new", "new", c, true, none, [], ["n.go"], []⟩]
  DefaultBuildFileName := fun _ => "BUILD.bazel"
  EmptyFile := fun path => ⟨⟨path, []⟩, path, "", []⟩
  Insert := fun r f => { f with Rules := f.Rules ++ [r] }
  MergeFile := fun f _ gen _ _ => { f with Rules := f.Rules ++ gen }

/-- The configuration of the demo repository for `gazelle fix /repo`. -/
def demoConfig : Config := ⟨"/repo", "demo", ["/repo"], true, ["BUILD"], []⟩

/-- The root directory of the demo repository as delivered by the walker. -/
def demoRootCall : WalkCall :=
  ⟨"/repo", "", demoConfig, true, some demoBuild, ["vendor", "new"], ["a.go"], []⟩

/-- The scope directories checked by `CheckFlags`: the positional arguments,
or `.` when there is none. -/
def scopeDirs (fs : FlagSet) : List String :=
  if fs.Args.length = 0 then ["."] else fs.Args

/-- A scope directory that fails absolute-path resolution or symlink
resolution, or resolves to a directory that `isDescendingDir` places outside
the repository root. -/
def badScopeDir (env : Env) (root d : String) : Bool :=
  match env.Abs d with
  | .error _ => true
  | .ok a =>
    match env.EvalSymlinks a with
    | .error _ => true
    | .ok dir => !isDescendingDir dir root

/-- A scope directory that resolves to a cleaned absolute path outside the
directory tree of the repository root (itself a cleaned absolute path): the
elements of the root are not a prefix of its elements. -/
def outsideRoot (env : Env) (root d : String) : Prop :=
  ∃ a rs ds, env.Abs d = .ok a ∧ env.EvalSymlinks a = .ok (absPath ds) ∧ root = absPath rs ∧
    (∀ e ∈ rs, goodElem e) ∧ (∀ e ∈ ds, goodElem e) ∧ ¬ rs <+: ds

/-- The plugin declares the rule kind in its `Kinds()`. -/
def declares (l : Language) (kind : String) : Bool :=
  (l.Kinds.map Prod.fst).contains kind

/-- Plugin `i` is the last plugin of the list that declares the kind. -/
def IsLastDeclaring (ls : List Language) (kind : String) (i : Nat) (l : Language) : Prop :=
  ls[i]? = some l ∧ declares l kind = true ∧
    ∀ j l', i < j → ls[j]? = some l' → declares l' kind = false

/-- The last plugin declaring a kind, searched in the plugins `ls` that sit at
the positions from `i` on. -/
def lastDeclaringFrom (i : Nat) : List Language → String → Option (Nat × Language)
  | [], _ => none
  | l :: ls, kind =>
    match lastDeclaringFrom (i + 1) ls kind with
    | some r => some r
    | none => if declares l kind then some (i, l) else none

/-- A plugin that declares no kind and changes nothing. -/
def idleLanguage : Language where
  Kinds := []
  Loads := []
  RegisterFlags := fun _ c => c
  CheckFlags := fun c => .ok c
  Fix := fun _ f => f
  GenerateRules := fun _ _ _ _ _ _ _ _ _ => ([], [])
  Resolve := fun _ _ _ r _ => r

/-- The resolver of a kind in the table (an idle plugin when there is none). -/
def resolverOf (m : GoMap (Nat × Language)) (kind : String) : Nat × Language :=
  (m.get kind).getD (0, idleLanguage)

/-- The file handed to the emitter by an `Emit` call. -/
def Event.emittedFile : Event → Option BzlFile
  | .Emit _ _ f _ => some f
  | _ => none

/-- The elements of a cleaned path: the non-empty pieces between separators. -/
def pathElements (path : String) : List String :=
  ((splitSep path.data).filter (fun e => e ≠ [])).map String.mk

/-! ## Lemmas and theorems -/

@[simp] theorem log_trace (st : RunState) (e : Event) : (st.log e).trace = st.trace ++ [e] := rfl

@[simp] theorem log_ruleIndex (st : RunState) (e : Event) : (st.log e).ruleIndex = st.ruleIndex :=
  rfl

@[simp] theorem log_visits (st : RunState) (e : Event) : (st.log e).visits = st.visits := rfl

theorem addRules_trace (c : Config) (f : File) (rs : List Rule) (st : RunState) :
    (addRules c f rs st).trace = st.trace ++ rs.map (fun r => Event.AddRule c r f) := by
  induction rs generalizing st with
  | nil => simp [addRules]
  | cons r rs ih => simp [addRules, ih]

theorem addRules_visits (c : Config) (f : File) (rs : List Rule) (st : RunState) :
    (addRules c f rs st).visits = st.visits := by
  induction rs generalizing st with
  | nil => simp [addRules]
  | cons r rs ih => simp [addRules, ih]

theorem addRules_ruleIndex (c : Config) (f : File) (rs : List Rule) (st : RunState) :
    (addRules c f rs st).ruleIndex
      = ⟨st.ruleIndex.rules ++ rs.map (fun r => (r, f)), st.ruleIndex.finished⟩ := by
  induction rs generalizing st with
  | nil => simp [addRules]
  | cons r rs ih => simp [addRules, ih, RuleIndex.AddRule]

theorem fixLoop_fst (c : Config) (i : Nat) (ls : List Language) (f : File) (st : RunState) :
    (fixLoop c i ls f st).1 = fixedBy c ls f := by
  induction ls generalizing i f st with
  | nil => rfl
  | cons l ls ih => simp [fixLoop, fixedBy, ih]

theorem fixLoop_trace (c : Config) (i : Nat) (ls : List Language) (f : File) (st : RunState) :
    (fixLoop c i ls f st).2.trace
      = st.trace ++ (List.range ls.length).map
          (fun k => Event.Fix (i + k) c (fixedBy c (ls.take k) f)) := by
  induction ls generalizing i f st with
  | nil => simp [fixLoop]
  | cons l ls ih =>
    simp only [fixLoop, ih, log_trace, List.length_cons, List.range_succ_eq_map, List.map_cons,
      List.map_map, List.append_assoc, List.singleton_append]
    simp [fixedBy]
    intro k _
    omega

theorem fixLoop_ruleIndex (c : Config) (i : Nat) (ls : List Language) (f : File)
    (st : RunState) : (fixLoop c i ls f st).2.ruleIndex = st.ruleIndex := by
  induction ls generalizing i f st with
  | nil => rfl
  | cons l ls ih => simp [fixLoop, ih]

theorem fixLoop_visits (c : Config) (i : Nat) (ls : List Language) (f : File)
    (st : RunState) : (fixLoop c i ls f st).2.visits = st.visits := by
  induction ls generalizing i f st with
  | nil => rfl
  | cons l ls ih => simp [fixLoop, ih]

theorem generateResults_length (w : WalkCall) (f : Option File) (ls : List Language)
    (empty gen : List Rule) : (generateResults w f ls empty gen).length = ls.length := by
  induction ls generalizing empty gen with
  | nil => rfl
  | cons l ls ih => simp [generateResults, ih]

/-- The `k`-th result is what the `k`-th plugin returns on the concatenation of
the earlier results. -/
theorem generateResults_getElem? (w : WalkCall) (f : Option File) (ls : List Language)
    (empty gen : List Rule) (k : Nat) :
    (generateResults w f ls empty gen)[k]?
      = ls[k]?.map (fun l => l.GenerateRules w.c w.dir w.rel f w.subdirs w.regularFiles w.genFiles
          (empty ++ (((generateResults w f ls empty gen).take k).map Prod.fst).flatten)
          (gen ++ (((generateResults w f ls empty gen).take k).map Prod.snd).flatten)) := by
  induction ls generalizing empty gen k with
  | nil => simp [generateResults]
  | cons l ls ih =>
    cases k with
    | zero => simp [generateResults]
    | succ k => simp [generateResults, ih, List.append_assoc]

theorem generateLoop_fst (w : WalkCall) (f : Option File) (i : Nat) (ls : List Language)
    (empty gen : List Rule) (st : RunState) :
    (generateLoop w f i ls empty gen st).1
      = empty ++ ((generateResults w f ls empty gen).map Prod.fst).flatten := by
  induction ls generalizing i empty gen st with
  | nil => simp [generateLoop, generateResults]
  | cons l ls ih => simp [generateLoop, generateResults, ih, List.append_assoc]

theorem generateLoop_snd (w : WalkCall) (f : Option File) (i : Nat) (ls : List Language)
    (empty gen : List Rule) (st : RunState) :
    (generateLoop w f i ls empty gen st).2.1
      = gen ++ ((generateResults w f ls empty gen).map Prod.snd).flatten := by
  induction ls generalizing i empty gen st with
  | nil => simp [generateLoop, generateResults]
  | cons l ls ih => simp [generateLoop, generateResults, ih, List.append_assoc]

theorem generateLoop_trace (w : WalkCall) (f : Option File) (i : Nat) (ls : List Language)
    (empty gen : List Rule) (st : RunState) :
    (generateLoop w f i ls empty gen st).2.2.trace
      = st.trace ++ (List.range ls.length).map (fun k =>
          Event.GenerateRules (i + k) w.c w.dir w.rel f w.subdirs w.regularFiles w.genFiles
            (empty ++ (((generateResults w f ls empty gen).take k).map Prod.fst).flatten)
            (gen ++ (((generateResults w f ls empty gen).take k).map Prod.snd).flatten)) := by
  induction ls generalizing i empty gen st with
  | nil => simp [generateLoop]
  | cons l ls ih =>
    simp only [generateLoop, ih, log_trace, List.length_cons, List.range_succ_eq_map,
      List.map_cons, List.map_map, List.append_assoc, List.singleton_append]
    simp [generateResults, List.append_assoc]
    intro k _
    omega

theorem generateLoop_ruleIndex (w : WalkCall) (f : Option File) (i : Nat) (ls : List Language)
    (empty gen : List Rule) (st : RunState) :
    (generateLoop w f i ls empty gen st).2.2.ruleIndex = st.ruleIndex := by
  induction ls generalizing i empty gen st with
  | nil => rfl
  | cons l ls ih => simp [generateLoop, ih]

theorem generateLoop_visits (w : WalkCall) (f : Option File) (i : Nat) (ls : List Language)
    (empty gen : List Rule) (st : RunState) :
    (generateLoop w f i ls empty gen st).2.2.visits = st.visits := by
  induction ls generalizing i empty gen st with
  | nil => rfl
  | cons l ls ih => simp [generateLoop, ih]

theorem insertLoop_fst (env : Env) (rs : List Rule) (f : File) (st : RunState) :
    (insertLoop env rs f st).1 = rs.foldl (fun f r => env.Insert r f) f := by
  induction rs generalizing f st with
  | nil => rfl
  | cons r rs ih => simp [insertLoop, ih]

theorem insertLoop_trace (env : Env) (rs : List Rule) (f : File) (st : RunState) :
    (insertLoop env rs f st).2.trace = st.trace ++ insertEvents env rs f := by
  induction rs generalizing f st with
  | nil => simp [insertLoop, insertEvents]
  | cons r rs ih => simp [insertLoop, insertEvents, ih]

theorem insertLoop_ruleIndex (env : Env) (rs : List Rule) (f : File) (st : RunState) :
    (insertLoop env rs f st).2.ruleIndex = st.ruleIndex := by
  induction rs generalizing f st with
  | nil => rfl
  | cons r rs ih => simp [insertLoop, ih]

theorem insertLoop_visits (env : Env) (rs : List Rule) (f : File) (st : RunState) :
    (insertLoop env rs f st).2.visits = st.visits := by
  induction rs generalizing f st with
  | nil => rfl
  | cons r rs ih => simp [insertLoop, ih]

theorem mem_insertEvents (env : Env) (rs : List Rule) (f : File) (e : Event)
    (h : e ∈ insertEvents env rs f) : ∃ r g, e = Event.Insert r g := by
  induction rs generalizing f with
  | nil => simp [insertEvents] at h
  | cons r rs ih =>
    simp only [insertEvents, List.mem_cons] at h
    rcases h with h | h
    · exact ⟨r, f, h⟩
    · exact ih _ h

theorem splitSep_nosep (e : List Char) (h : Separator ∉ e) : splitSep e = [e] := by
  induction e with
  | nil => rfl
  | cons c e ih =>
    simp only [List.mem_cons, not_or] at h
    have hc : c ≠ Separator := fun x => h.1 x.symm
    simp [splitSep, hc, ih h.2]

theorem splitSep_append_sep (e rest : List Char) (h : Separator ∉ e) :
    splitSep (e ++ Separator :: rest) = e :: splitSep rest := by
  induction e with
  | nil => simp [splitSep]
  | cons c e ih =>
    simp only [List.mem_cons, not_or] at h
    have hc : c ≠ Separator := fun x => h.1 x.symm
    simp [splitSep, hc, ih h.2]

theorem splitSep_joinSep (e : List Char) (es : List (List Char))
    (h : ∀ x ∈ e :: es, Separator ∉ x) : splitSep (joinSep (e :: es)) = e :: es := by
  induction es generalizing e with
  | nil => simpa [joinSep] using splitSep_nosep e (h e (List.mem_cons_self _ _))
  | cons e' es ih =>
    simp only [joinSep]
    rw [splitSep_append_sep _ _ (h e (List.mem_cons_self _ _)),
      ih e' (fun x hx => h x (List.mem_cons_of_mem _ hx))]

theorem cleanElems_good (out es : List (List Char)) (h : ∀ e ∈ es, goodElem e) :
    cleanElems true out es = out.reverse ++ es := by
  induction es generalizing out with
  | nil => simp [cleanElems]
  | cons e es ih =>
    obtain ⟨h1, -, h3, h4⟩ := h e (List.mem_cons_self _ _)
    simp [cleanElems, h1, h3, h4, ih (e :: out) (fun x hx => h x (List.mem_cons_of_mem _ hx))]

theorem Clean_absPath (es : List (List Char)) (h : ∀ e ∈ es, goodElem e) :
    Clean (absPath es) = absPath es := by
  unfold Clean absPath
  simp only [List.cons_ne_nil, if_false, List.head?_cons]
  cases es with
  | nil => simp [splitSep, joinSep, cleanElems, Separator]
  | cons e es =>
    have hs : splitSep (Separator :: joinSep (e :: es)) = [] :: (e :: es) := by
      rw [show Separator :: joinSep (e :: es) = [] ++ Separator :: joinSep (e :: es) from rfl,
        splitSep_append_sep _ _ (by simp), splitSep_joinSep e es (fun x hx => (h x hx).2.1)]
    rw [hs]
    have hc : cleanElems true [] ([] :: e :: es) = e :: es := by
      rw [cleanElems]
      simp only [true_or, if_true]
      rw [cleanElems_good _ _ h]
      rfl
    simp [hc]

theorem takeWhile_joinSep (e : List Char) (es : List (List Char)) (h : Separator ∉ e) :
    (joinSep (e :: es)).takeWhile (fun c => c ≠ Separator) = e := by
  have key : ∀ rest : List Char, (rest = [] ∨ rest.head? = some Separator) →
      (e ++ rest).takeWhile (fun c => c ≠ Separator) = e := by
    intro rest hrest
    induction e with
    | nil =>
      rcases hrest with hr | hr
      · subst hr; rfl
      · cases rest with
        | nil => rfl
        | cons c rest =>
          simp only [List.head?_cons, Option.some.injEq] at hr
          subst hr
          simp [List.takeWhile]
    | cons c e ih =>
      simp only [List.mem_cons, not_or] at h
      have hc : c ≠ Separator := fun x => h.1 x.symm
      rw [List.cons_append, List.takeWhile_cons_of_pos (by simpa using hc), ih h.2]
  cases es with
  | nil => simpa [joinSep] using key [] (Or.inl rfl)
  | cons e' es => simpa [joinSep] using key (Separator :: joinSep (e' :: es)) (Or.inr rfl)

theorem dropWhile_joinSep (e : List Char) (es : List (List Char)) (h : Separator ∉ e) :
    ((joinSep (e :: es)).dropWhile (fun c => c ≠ Separator)).drop 1 = joinSep es := by
  have key : ∀ rest : List Char, (rest = [] ∨ rest.head? = some Separator) →
      ((e ++ rest).dropWhile (fun c => c ≠ Separator)) = rest := by
    intro rest hrest
    induction e with
    | nil =>
      rcases hrest with hr | hr
      · subst hr; rfl
      · cases rest with
        | nil => rfl
        | cons c rest =>
          simp only [List.head?_cons, Option.some.injEq] at hr
          subst hr
          simp [List.dropWhile]
    | cons c e ih =>
      simp only [List.mem_cons, not_or] at h
      have hc : c ≠ Separator := fun x => h.1 x.symm
      rw [List.cons_append, List.dropWhile_cons_of_pos (by simpa using hc), ih h.2]
  cases es with
  | nil =>
    have := key [] (Or.inl rfl)
    simp only [List.append_nil] at this
    show (List.dropWhile _ e).drop 1 = []
    rw [this]
    rfl
  | cons e' es =>
    have := key (Separator :: joinSep (e' :: es)) (Or.inr rfl)
    simp only [joinSep]
    rw [this]
    rfl

theorem joinSep_ne_nil (e : List Char) (es : List (List Char)) (h : e ≠ []) :
    joinSep (e :: es) ≠ [] := by
  cases es with
  | nil => simpa [joinSep] using h
  | cons e' es => simp [joinSep, h]

theorem joinSep_length_le (e : List Char) (es : List (List Char)) :
    (joinSep es).length ≤ (joinSep (e :: es)).length := by
  cases es with
  | nil => simp [joinSep]
  | cons e' es => simp only [joinSep, List.length_append, List.length_cons]; omega

theorem joinSep_length_lt (e : List Char) (es : List (List Char)) (h : e ≠ []) :
    (joinSep es).length < (joinSep (e :: es)).length := by
  have hl : 0 < e.length := List.length_pos.2 h
  cases es with
  | nil => simpa [joinSep] using hl
  | cons e' es => simp only [joinSep, List.length_append, List.length_cons]; omega

/-- The element loop of `Rel` on two cleaned paths: either the elements of the
base are a prefix of the elements of the target and the loop ends with nothing
left of the base, or it ends with something left of the base at an element
that is not `..`. -/
theorem relLoop_joinSep (rs ds : List (List Char)) (hr : ∀ e ∈ rs, goodElem e)
    (hd : ∀ e ∈ ds, goodElem e) (fuel : Nat) (hf : (joinSep rs).length < fuel) :
    (rs <+: ds ∧
      relLoop fuel (joinSep rs) (joinSep ds) = ([], [], joinSep (ds.drop rs.length))) ∨
    (¬ rs <+: ds ∧ (relLoop fuel (joinSep rs) (joinSep ds)).1 ≠ ['.', '.'] ∧
      (relLoop fuel (joinSep rs) (joinSep ds)).2.1 ≠ []) := by
  induction rs generalizing ds fuel with
  | nil =>
    left
    refine ⟨List.nil_prefix, ?_⟩
    cases fuel with
    | zero => simp at hf
    | succ fuel => simp [relLoop, joinSep]
  | cons r rs ih =>
    obtain ⟨hr1, hr2, hr3, hr4⟩ := hr r (List.mem_cons_self _ _)
    have hrs : ∀ e ∈ rs, goodElem e := fun e he => hr e (List.mem_cons_of_mem _ he)
    have hne := joinSep_ne_nil r rs hr1
    cases fuel with
    | zero => simp at hf
    | succ fuel =>
      cases ds with
      | nil =>
        right
        refine ⟨by simp [List.prefix_nil], ?_, ?_⟩
        · simp [relLoop, joinSep]
        · simpa [relLoop, joinSep] using hne
      | cons d ds =>
        obtain ⟨hd1, hd2, -, -⟩ := hd d (List.mem_cons_self _ _)
        have hds : ∀ e ∈ ds, goodElem e := fun e he => hd e (List.mem_cons_of_mem _ he)
        have hne' := joinSep_ne_nil d ds hd1
        rw [relLoop]
        simp only [hne, hne', or_self, if_false, takeWhile_joinSep r rs hr2,
          takeWhile_joinSep d ds hd2, dropWhile_joinSep r rs hr2, dropWhile_joinSep d ds hd2]
        by_cases hrd : d = r
        · subst hrd
          simp only [ne_eq, not_true_eq_false, if_false]
          have hlt := joinSep_length_lt d rs hr1
          rcases ih ds hrs hds fuel (by omega) with ⟨h1, h2⟩ | ⟨h1, h2, h3⟩
          · left
            exact ⟨by simpa [List.cons_prefix_cons] using h1, by simpa using h2⟩
          · right
            exact ⟨by simpa [List.cons_prefix_cons] using h1, h2, h3⟩
        · right
          simp only [ne_eq, hrd, not_false_eq_true, if_true]
          refine ⟨?_, hr4, hne⟩
          intro hp
          rw [List.cons_prefix_cons] at hp
          exact hrd hp.1.symm

theorem dotdots_eq (n : Nat) : ∃ rest, dotdots n = '.' :: '.' :: rest := by
  induction n with
  | zero => exact ⟨[], rfl⟩
  | succ n ih =>
    obtain ⟨rest, h⟩ := ih
    exact ⟨rest ++ [Separator, '.', '.'], by simp [dotdots, h]⟩

theorem joinSep_injective (rs ds : List (List Char)) (hr : ∀ e ∈ rs, goodElem e)
    (hd : ∀ e ∈ ds, goodElem e) (h : joinSep rs = joinSep ds) : rs = ds := by
  cases rs with
  | nil =>
    cases ds with
    | nil => rfl
    | cons d ds =>
      exact absurd h.symm (joinSep_ne_nil d ds (hd d (List.mem_cons_self _ _)).1)
  | cons r rs =>
    cases ds with
    | nil => exact absurd h (joinSep_ne_nil r rs (hr r (List.mem_cons_self _ _)).1)
    | cons d ds =>
      have h1 := splitSep_joinSep r rs (fun x hx => (hr x hx).2.1)
      have h2 := splitSep_joinSep d ds (fun x hx => (hd x hx).2.1)
      rw [h] at h1
      rw [← h1, h2]

/-- The relative path computed by `Rel` between two cleaned absolute paths:
`.` for equal paths, the remaining elements of the target when the elements of
the base are a prefix of those of the target, and a path starting with `..`
otherwise. -/
theorem Rel_absPath (rs ds : List (List Char)) (hr : ∀ e ∈ rs, goodElem e)
    (hd : ∀ e ∈ ds, goodElem e) :
    (rs = ds ∧ Rel (absPath rs) (absPath ds) = .ok ".") ∨
    (rs ≠ ds ∧ rs <+: ds ∧
      Rel (absPath rs) (absPath ds) = .ok (String.mk (joinSep (ds.drop rs.length)))) ∨
    (¬ rs <+: ds ∧
      ∃ rest, Rel (absPath rs) (absPath ds) = .ok (String.mk ('.' :: '.' :: rest))) := by
  by_cases heq : rs = ds
  · left
    subst heq
    exact ⟨rfl, by simp [Rel]⟩
  · right
    have hne : absPath ds ≠ absPath rs := by
      intro h
      apply heq
      have : joinSep ds = joinSep rs := by
        have h' := congrArg String.data h
        simpa [absPath] using h'
      exact (joinSep_injective ds rs hd hr this).symm
    have hdot : absPath rs ≠ "." := by
      intro h
      have := congrArg String.data h
      simp [absPath, Separator] at this
    have hstep : relLoop ((absPath rs).data.length + 1) (absPath rs).data (absPath ds).data
        = relLoop (joinSep rs).length.succ (joinSep rs) (joinSep ds) := by
      show relLoop ((Separator :: joinSep rs).length + 1) (Separator :: joinSep rs)
        (Separator :: joinSep ds) = _
      rw [relLoop]
      simp [List.takeWhile, List.dropWhile]
    have hrel : Rel (absPath rs) (absPath ds)
        = (match relLoop (joinSep rs).length.succ (joinSep rs) (joinSep ds) with
          | (bcur, brest, trest) =>
            if bcur = ['.', '.'] then
              .error ("Rel: can't make " ++ absPath ds ++ " relative to " ++ absPath rs)
            else if brest ≠ [] then
              if trest ≠ [] then
                .ok (String.mk (dotdots (brest.count Separator) ++ Separator :: trest))
              else .ok (String.mk (dotdots (brest.count Separator)))
            else .ok (String.mk trest)) := by
      unfold Rel
      simp only [Clean_absPath rs hr, Clean_absPath ds hd, hne, hdot, if_false]
      rw [hstep]
      simp [absPath]
    rcases relLoop_joinSep rs ds hr hd (joinSep rs).length.succ (Nat.lt_succ_self _) with
      ⟨h1, h2⟩ | ⟨h1, h2, h3⟩
    · left
      refine ⟨heq, h1, ?_⟩
      rw [hrel, h2]
      simp
    · right
      refine ⟨h1, ?_⟩
      rw [hrel]
      generalize relLoop (joinSep rs).length.succ (joinSep rs) (joinSep ds) = res at h2 h3
      obtain ⟨bcur, brest, trest⟩ := res
      simp only at h2 h3
      simp only [h2, h3, ne_eq, not_false_eq_true, if_true, if_false]
      obtain ⟨rest, hrest⟩ := dotdots_eq (brest.count Separator)
      split
      · exact ⟨rest ++ Separator :: trest, by simp [hrest]⟩
      · exact ⟨rest, by simp [hrest]⟩

/-- For cleaned absolute paths, `isDescendingDir` accepts only directories
inside the tree of the root: a directory whose elements do not extend the
elements of the root is rejected. -/
theorem isDescendingDir_sound (rs ds : List (List Char)) (hr : ∀ e ∈ rs, goodElem e)
    (hd : ∀ e ∈ ds, goodElem e) (h : ¬ rs <+: ds) :
    isDescendingDir (absPath ds) (absPath rs) = false := by
  rcases Rel_absPath rs ds hr hd with ⟨h1, -⟩ | ⟨-, h1, -⟩ | ⟨-, rest, h1⟩
  · subst h1
    exact absurd (List.prefix_refl _) h
  · exact absurd h1 h
  · unfold isDescendingDir
    rw [h1]
    have : String.mk ('.' :: '.' :: rest) ≠ "." := by
      intro hx
      have := congrArg String.data hx
      simp at this
    simp [this, HasPrefix]

theorem joinSep_ne_dot (e : List Char) (es : List (List Char)) (h : goodElem e) :
    joinSep (e :: es) ≠ ['.'] := by
  obtain ⟨h1, -, h3, -⟩ := h
  cases es with
  | nil => simpa [joinSep] using h3
  | cons e' es =>
    simp only [joinSep]
    intro hx
    have := congrArg List.length hx
    have hl : 0 < e.length := List.length_pos.2 h1
    simp only [List.length_append, List.length_cons, List.length_nil] at this
    omega

theorem isPrefixOf_dotdot_joinSep (e : List Char) (es : List (List Char)) (h : goodElem e) :
    List.isPrefixOf ['.', '.'] (joinSep (e :: es)) = List.isPrefixOf ['.', '.'] e := by
  obtain ⟨h1, h2, -, -⟩ := h
  cases e with
  | nil => exact absurd rfl h1
  | cons a e =>
    cases e with
    | nil =>
      cases es with
      | nil => rfl
      | cons e' es =>
        simp only [joinSep, List.cons_append, List.nil_append, List.isPrefixOf]
        simp [Separator]
    | cons b e =>
      cases es with
      | nil => rfl
      | cons e' es => simp [joinSep, List.isPrefixOf]

/-- What `isDescendingDir` computes for cleaned absolute paths: the elements
of the root are a prefix of the elements of the directory, and the first
element below the root, if there is one, does not start with `..`. -/
theorem isDescendingDir_iff (rs ds : List (List Char)) (hr : ∀ e ∈ rs, goodElem e)
    (hd : ∀ e ∈ ds, goodElem e) :
    isDescendingDir (absPath ds) (absPath rs) = true ↔
      rs <+: ds ∧
        ∀ e, (ds.drop rs.length).head? = some e → List.isPrefixOf ['.', '.'] e = false := by
  constructor
  · intro h
    have hp : rs <+: ds := by
      by_contra hn
      rw [isDescendingDir_sound rs ds hr hd hn] at h
      cases h
    refine ⟨hp, ?_⟩
    intro e he
    rcases Rel_absPath rs ds hr hd with ⟨h1, -⟩ | ⟨-, -, h1⟩ | ⟨hn, -⟩
    · subst h1
      simp at he
    · cases hrest : ds.drop rs.length with
      | nil => rw [hrest] at he; simp at he
      | cons e1 rest =>
        rw [hrest] at he h1
        simp only [List.head?_cons, Option.some.injEq] at he
        subst he
        have hg : goodElem e1 :=
          hd e1 (List.mem_of_mem_drop (by rw [hrest]; exact List.mem_cons_self _ _))
        unfold isDescendingDir at h
        rw [h1] at h
        have hnd : String.mk (joinSep (e1 :: rest)) ≠ "." := by
          intro hx
          have := congrArg String.data hx
          exact joinSep_ne_dot e1 rest hg this
        simp only [hnd, if_false, HasPrefix] at h
        have hx := isPrefixOf_dotdot_joinSep e1 rest hg
        rw [hx] at h
        simpa using h
    · exact absurd hp hn
  · intro ⟨hp, hfirst⟩
    rcases Rel_absPath rs ds hr hd with ⟨-, h1⟩ | ⟨-, -, h1⟩ | ⟨hn, -⟩
    · unfold isDescendingDir
      rw [h1]
      rfl
    · unfold isDescendingDir
      rw [h1]
      cases hrest : ds.drop rs.length with
      | nil => simp [joinSep, HasPrefix]
      | cons e1 rest =>
        have hg : goodElem e1 :=
          hd e1 (List.mem_of_mem_drop (by rw [hrest]; exact List.mem_cons_self _ _))
        have hnd : String.mk (joinSep (e1 :: rest)) ≠ "." := by
          intro hx
          have := congrArg String.data hx
          exact joinSep_ne_dot e1 rest hg this
        have hx := isPrefixOf_dotdot_joinSep e1 rest hg
        have hdd : ("..".data : List Char) = ['.', '.'] := rfl
        have := hfirst e1 (by rw [hrest]; rfl)
        simp only [hnd, if_false, HasPrefix, hdd, hx, this]
        rfl
    · exact absurd hp hn

theorem fixStep_fst (env : Env) (w : WalkCall) (st : RunState) :
    (fixStep env w st).1 = fixedFile env w := by
  unfold fixStep fixedFile
  cases w.f <;> simp [fixLoop_fst]

theorem fixStep_trace (env : Env) (w : WalkCall) (st : RunState) :
    (fixStep env w st).2.trace = st.trace ++ fixEvents env w := by
  unfold fixStep fixEvents
  cases w.f <;> simp [fixLoop_trace]

theorem fixStep_ruleIndex (env : Env) (w : WalkCall) (st : RunState) :
    (fixStep env w st).2.ruleIndex = st.ruleIndex := by
  unfold fixStep
  cases w.f <;> simp [fixLoop_ruleIndex]

theorem fixStep_visits (env : Env) (w : WalkCall) (st : RunState) :
    (fixStep env w st).2.visits = st.visits := by
  unfold fixStep
  cases w.f <;> simp [fixLoop_visits]

theorem mergeStep_fst (env : Env) (kinds : GoMap KindInfo) (w : WalkCall) (st : RunState) :
    (mergeStep env kinds w (fixedFile env w) (emptyRules env w) (genRules env w) st).1
      = mergedFile env kinds w := by
  unfold mergeStep mergedFile
  cases fixedFile env w <;> simp [insertLoop_fst]

theorem mergeStep_trace (env : Env) (kinds : GoMap KindInfo) (w : WalkCall) (st : RunState) :
    (mergeStep env kinds w (fixedFile env w) (emptyRules env w) (genRules env w) st).2.trace
      = st.trace ++ mergeEvents env kinds w := by
  unfold mergeStep mergeEvents
  cases fixedFile env w <;> simp [insertLoop_trace]

theorem mergeStep_ruleIndex (env : Env) (kinds : GoMap KindInfo) (w : WalkCall)
    (f : Option File) (empty gen : List Rule) (st : RunState) :
    (mergeStep env kinds w f empty gen st).2.ruleIndex = st.ruleIndex := by
  unfold mergeStep
  cases f <;> simp [insertLoop_ruleIndex]

theorem mergeStep_visits (env : Env) (kinds : GoMap KindInfo) (w : WalkCall)
    (f : Option File) (empty gen : List Rule) (st : RunState) :
    (mergeStep env kinds w f empty gen st).2.visits = st.visits := by
  unfold mergeStep
  cases f <;> simp [insertLoop_visits]

/-- The test `f == nil && len(gen) == 0` of the callback fails exactly for the
recorded directories. -/
theorem skip_iff (env : Env) (w : WalkCall) (hu : w.update = true) :
    (fixedFile env w = none ∧ (genRules env w).length = 0) ↔ recorded env w = false := by
  unfold recorded fixedFile
  cases hf : w.f <;> cases hg : genRules env w <;> simp [hu]

theorem walkFunc_trace (env : Env) (kinds : GoMap KindInfo) (st : RunState) (w : WalkCall) :
    (walkFunc env kinds st w).trace = st.trace ++ walkEvents env kinds w := by
  unfold walkFunc walkEvents
  cases hu : w.update
  · cases hf : w.f <;> simp [addRules_trace]
  · simp only [Bool.not_true, Bool.false_eq_true, if_false, if_true, fixStep_fst,
      generateLoop_fst, generateLoop_snd, List.nil_append]
    have hs := skip_iff env w hu
    simp only [genRules, emptyRules, pluginResults] at hs ⊢
    by_cases hr : recorded env w = true
    · have hn : ¬ (fixedFile env w = none ∧ ((generateResults w (fixedFile env w) env.languages
          [] []).map Prod.snd).flatten.length = 0) := by
        rw [hs]; simp [hr]
      rw [if_neg hn]
      have h1 := mergeStep_trace env kinds w (generateLoop w (fixedFile env w) 0 env.languages [] []
        (fixStep env w st).2).2.2
      have h2 := mergeStep_fst env kinds w (generateLoop w (fixedFile env w) 0 env.languages [] []
        (fixStep env w st).2).2.2
      simp only [genRules, emptyRules, pluginResults] at h1 h2
      simp [addRules_trace, h1, h2, hr, generateLoop_trace, fixStep_trace, generateEvents,
        pluginResults, genRules, emptyRules]
    · have hr' : recorded env w = false := by simpa using hr
      rw [if_pos (hs.2 hr')]
      simp [hr', generateLoop_trace, fixStep_trace, generateEvents, pluginResults]

theorem walkFunc_visits (env : Env) (kinds : GoMap KindInfo) (st : RunState) (w : WalkCall) :
    (walkFunc env kinds st w).visits
      = st.visits ++ (if recorded env w then [recordOf env kinds w] else []) := by
  unfold walkFunc
  cases hu : w.update
  · have hr : recorded env w = false := by simp [recorded, hu]
    cases hf : w.f <;> simp [addRules_visits, hr]
  · simp only [Bool.not_true, Bool.false_eq_true, if_false, fixStep_fst,
      generateLoop_fst, generateLoop_snd, List.nil_append]
    have hs := skip_iff env w hu
    simp only [genRules, emptyRules, pluginResults] at hs ⊢
    by_cases hr : recorded env w = true
    · have hn : ¬ (fixedFile env w = none ∧ ((generateResults w (fixedFile env w) env.languages
          [] []).map Prod.snd).flatten.length = 0) := by
        rw [hs]; simp [hr]
      rw [if_neg hn]
      have h2 := mergeStep_fst env kinds w (generateLoop w (fixedFile env w) 0 env.languages [] []
        (fixStep env w st).2).2.2
      simp only [genRules, emptyRules, pluginResults] at h2
      simp [addRules_visits, h2, hr, mergeStep_visits, generateLoop_visits, fixStep_visits,
        recordOf, genRules, emptyRules, pluginResults]
    · have hr' : recorded env w = false := by simpa using hr
      rw [if_pos (hs.2 hr')]
      simp [hr', generateLoop_visits, fixStep_visits]

theorem walkFunc_ruleIndex (env : Env) (kinds : GoMap KindInfo) (st : RunState) (w : WalkCall) :
    (walkFunc env kinds st w).ruleIndex
      = ⟨st.ruleIndex.rules ++ indexedRules env kinds w, st.ruleIndex.finished⟩ := by
  unfold walkFunc indexedRules
  cases hu : w.update
  · cases hf : w.f <;> simp [addRules_ruleIndex]
  · simp only [Bool.not_true, Bool.false_eq_true, if_false, if_true, fixStep_fst,
      generateLoop_fst, generateLoop_snd, List.nil_append]
    have hs := skip_iff env w hu
    simp only [genRules, emptyRules, pluginResults] at hs ⊢
    by_cases hr : recorded env w = true
    · have hn : ¬ (fixedFile env w = none ∧ ((generateResults w (fixedFile env w) env.languages
          [] []).map Prod.snd).flatten.length = 0) := by
        rw [hs]; simp [hr]
      rw [if_neg hn]
      have h2 := mergeStep_fst env kinds w (generateLoop w (fixedFile env w) 0 env.languages [] []
        (fixStep env w st).2).2.2
      simp only [genRules, emptyRules, pluginResults] at h2
      simp [addRules_ruleIndex, h2, hr, mergeStep_ruleIndex, generateLoop_ruleIndex,
        fixStep_ruleIndex]
    · have hr' : recorded env w = false := by simpa using hr
      rw [if_pos (hs.2 hr')]
      simp [hr', generateLoop_ruleIndex, fixStep_ruleIndex]

theorem foldl_walkFunc_trace (env : Env) (kinds : GoMap KindInfo) (ws : List WalkCall)
    (st : RunState) :
    (ws.foldl (walkFunc env kinds) st).trace = st.trace ++ ws.flatMap (walkEvents env kinds) := by
  induction ws generalizing st with
  | nil => simp
  | cons w ws ih => simp [ih, walkFunc_trace]

theorem foldl_walkFunc_visits (env : Env) (kinds : GoMap KindInfo) (ws : List WalkCall)
    (st : RunState) :
    (ws.foldl (walkFunc env kinds) st).visits
      = st.visits ++ (ws.filter (recorded env)).map (recordOf env kinds) := by
  induction ws generalizing st with
  | nil => simp
  | cons w ws ih =>
    simp only [List.foldl_cons, ih, walkFunc_visits, List.filter_cons]
    cases recorded env w <;> simp

theorem foldl_walkFunc_ruleIndex (env : Env) (kinds : GoMap KindInfo) (ws : List WalkCall)
    (st : RunState) :
    (ws.foldl (walkFunc env kinds) st).ruleIndex
      = ⟨st.ruleIndex.rules ++ ws.flatMap (indexedRules env kinds), st.ruleIndex.finished⟩ := by
  induction ws generalizing st with
  | nil => simp
  | cons w ws ih => simp [ih, walkFunc_ruleIndex]

theorem walkPhase_trace (env : Env) (kinds : GoMap KindInfo) (c : Config) (st : RunState) :
    (walkPhase env kinds c st).trace
      = st.trace ++ Event.Walk c :: (env.Walk c).flatMap (walkEvents env kinds) := by
  simp [walkPhase, foldl_walkFunc_trace]

theorem walkPhase_visits (env : Env) (kinds : GoMap KindInfo) (c : Config) (st : RunState) :
    (walkPhase env kinds c st).visits
      = st.visits ++ ((env.Walk c).filter (recorded env)).map (recordOf env kinds) := by
  simp [walkPhase, foldl_walkFunc_visits]

theorem walkPhase_ruleIndex (env : Env) (kinds : GoMap KindInfo) (c : Config) (st : RunState) :
    (walkPhase env kinds c st).ruleIndex
      = ⟨st.ruleIndex.rules ++ (env.Walk c).flatMap (indexedRules env kinds),
          st.ruleIndex.finished⟩ := by
  simp [walkPhase, foldl_walkFunc_ruleIndex]

theorem resolveRules_ruleIndex (c : Config) (rc : List Repo) (m : GoMap (Nat × Language))
    (p : String) (rs : List Rule) (st : RunState) :
    (resolveRules c rc m p rs st).1.ruleIndex = st.ruleIndex := by
  induction rs generalizing st with
  | nil => rfl
  | cons r rs ih =>
    unfold resolveRules
    cases hk : m.get r.kind with
    | none => simp
    | some il =>
      obtain ⟨i, l⟩ := il
      have := ih (st.log (.Resolve i c st.ruleIndex rc r (Label.New c.RepoName p r.name)))
      simp only
      split <;> simp_all

theorem resolveRules_visits (c : Config) (rc : List Repo) (m : GoMap (Nat × Language))
    (p : String) (rs : List Rule) (st : RunState) :
    (resolveRules c rc m p rs st).1.visits = st.visits := by
  induction rs generalizing st with
  | nil => rfl
  | cons r rs ih =>
    unfold resolveRules
    cases hk : m.get r.kind with
    | none => simp
    | some il =>
      obtain ⟨i, l⟩ := il
      have := ih (st.log (.Resolve i c st.ruleIndex rc r (Label.New c.RepoName p r.name)))
      simp only
      split <;> simp_all

theorem resolveRules_trace (c : Config) (rc : List Repo) (m : GoMap (Nat × Language))
    (p : String) (rs : List Rule) (st : RunState) :
    (resolveRules c rc m p rs st).1.trace
      = st.trace ++ (rs.takeWhile (hasResolver m)).flatMap (resolveEvent c st.ruleIndex rc m p) := by
  induction rs generalizing st with
  | nil => simp [resolveRules]
  | cons r rs ih =>
    unfold resolveRules
    cases hk : m.get r.kind with
    | none => simp [List.takeWhile, hasResolver, hk]
    | some il =>
      obtain ⟨i, l⟩ := il
      have := ih (st.log (.Resolve i c st.ruleIndex rc r (Label.New c.RepoName p r.name)))
      simp only
      split <;> simp_all [List.takeWhile, hasResolver, resolveEvent]

theorem resolveRules_snd (c : Config) (rc : List Repo) (m : GoMap (Nat × Language))
    (p : String) (rs : List Rule) (st : RunState) :
    (resolveRules c rc m p rs st).2
      = if rs.all (hasResolver m) then some (rs.map (resolved c st.ruleIndex rc m p)) else none := by
  induction rs generalizing st with
  | nil => simp [resolveRules]
  | cons r rs ih =>
    unfold resolveRules
    cases hk : m.get r.kind with
    | none => simp [hasResolver, hk]
    | some il =>
      obtain ⟨i, l⟩ := il
      have := ih (st.log (.Resolve i c st.ruleIndex rc r (Label.New c.RepoName p r.name)))
      simp only
      split
      · rename_i h
        rw [h] at this
        simp only [log_ruleIndex] at this
        simp only [List.all_cons, hasResolver, hk, Option.isSome_some, Bool.true_and]
        split at this
        · simp at this
        · rename_i hall
          rw [if_neg hall]
      · rename_i h
        rw [h] at this
        simp only [log_ruleIndex] at this
        simp only [List.all_cons, hasResolver, hk, Option.isSome_some, Bool.true_and,
          List.map_cons]
        split at this
        · rename_i hall
          rw [if_pos hall]
          simp only [Option.some.injEq] at this
          simp [this, resolved, hk]
        · simp at this

theorem resolveLoop_ruleIndex (env : Env) (c : Config) (rc : List Repo)
    (m : GoMap (Nat × Language)) (kinds : GoMap KindInfo) (vs : List visitRecord)
    (st : RunState) : (resolveLoop env c rc m kinds vs st).1.ruleIndex = st.ruleIndex := by
  induction vs generalizing st with
  | nil => rfl
  | cons v vs ih =>
    unfold resolveLoop
    have h1 := resolveRules_ruleIndex c rc m v.pkgRel v.rules st
    split
    · rename_i h
      rw [h] at h1
      exact h1
    · rename_i st1 rules h
      rw [h] at h1
      have h2 := ih (st1.log (.MergeFile v.file v.empty rules .PostResolve kinds))
      simp only
      split <;> simp_all

theorem resolveLoop_visits (env : Env) (c : Config) (rc : List Repo)
    (m : GoMap (Nat × Language)) (kinds : GoMap KindInfo) (vs : List visitRecord)
    (st : RunState) : (resolveLoop env c rc m kinds vs st).1.visits = st.visits := by
  induction vs generalizing st with
  | nil => rfl
  | cons v vs ih =>
    unfold resolveLoop
    have h1 := resolveRules_visits c rc m v.pkgRel v.rules st
    split
    · rename_i h
      rw [h] at h1
      exact h1
    · rename_i st1 rules h
      rw [h] at h1
      have h2 := ih (st1.log (.MergeFile v.file v.empty rules .PostResolve kinds))
      simp only
      split <;> simp_all

theorem takeWhile_eq_self_of_all {α : Type} (p : α → Bool) (l : List α)
    (h : l.all p = true) : l.takeWhile p = l := by
  induction l with
  | nil => rfl
  | cons a l ih =>
    simp only [List.all_cons, Bool.and_eq_true] at h
    simp [List.takeWhile, h.1, ih h.2]

/-- When every generated rule has a resolver, the resolution loop completes:
it makes exactly the calls of `resolutionEvents` for every record, in order. -/
theorem resolveLoop_ok (env : Env) (c : Config) (rc : List Repo)
    (m : GoMap (Nat × Language)) (kinds : GoMap KindInfo) (vs : List visitRecord)
    (st : RunState) (h : ∀ v ∈ vs, v.rules.all (hasResolver m) = true) :
    (resolveLoop env c rc m kinds vs st).2
        = some (vs.map (resolvedRecord env c st.ruleIndex rc m kinds)) ∧
      (resolveLoop env c rc m kinds vs st).1.trace
        = st.trace ++ vs.flatMap (resolutionEvents c st.ruleIndex rc m kinds) := by
  induction vs generalizing st with
  | nil => simp [resolveLoop]
  | cons v vs ih =>
    have hv := h v (List.mem_cons_self _ _)
    have hvs : ∀ v' ∈ vs, v'.rules.all (hasResolver m) = true :=
      fun v' hv' => h v' (List.mem_cons_of_mem _ hv')
    unfold resolveLoop
    have h1 := resolveRules_snd c rc m v.pkgRel v.rules st
    have h2 := resolveRules_trace c rc m v.pkgRel v.rules st
    have h3 := resolveRules_ruleIndex c rc m v.pkgRel v.rules st
    rw [if_pos hv] at h1
    rw [takeWhile_eq_self_of_all _ _ hv] at h2
    split
    · rename_i h'
      rw [h'] at h1
      simp at h1
    · rename_i st1 rules h'
      rw [h'] at h1 h2 h3
      simp only [Option.some.injEq] at h1
      subst h1
      have ih' := ih (st1.log (.MergeFile v.file v.empty
        (v.rules.map (resolved c st.ruleIndex rc m v.pkgRel)) .PostResolve kinds)) hvs
      simp only [log_ruleIndex, log_trace] at ih'
      simp only at h2 h3
      rw [h3] at ih'
      simp only
      split
      · rename_i h''
        rw [h''] at ih'
        simp at ih'
      · rename_i st2 vs' h''
        rw [h''] at ih'
        simp only [Option.some.injEq] at ih'
        obtain ⟨ih1, ih2⟩ := ih'
        subst ih1
        simp [ih2, h2, resolvedRecord, resolutionEvents]

theorem resolveRules_events (c : Config) (rc : List Repo) (m : GoMap (Nat × Language))
    (p : String) (rs : List Rule) (ix : RuleIndex) (e : Event)
    (h : e ∈ (rs.takeWhile (hasResolver m)).flatMap (resolveEvent c ix rc m p)) :
    isResolutionEvent ix e := by
  simp only [List.mem_flatMap] at h
  obtain ⟨r, _, hr⟩ := h
  unfold resolveEvent at hr
  split at hr
  · simp only [List.mem_singleton] at hr
    exact Or.inl ⟨_, _, _, _, _, hr⟩
  · simp at hr

/-- Whether or not it completes, the resolution loop only makes calls of the
resolution phase. -/
theorem resolveLoop_events (env : Env) (c : Config) (rc : List Repo)
    (m : GoMap (Nat × Language)) (kinds : GoMap KindInfo) (vs : List visitRecord)
    (st : RunState) :
    ∃ evs, (resolveLoop env c rc m kinds vs st).1.trace = st.trace ++ evs ∧
      ∀ e ∈ evs, isResolutionEvent st.ruleIndex e := by
  induction vs generalizing st with
  | nil => exact ⟨[], by simp [resolveLoop], by simp⟩
  | cons v vs ih =>
    unfold resolveLoop
    have h2 := resolveRules_trace c rc m v.pkgRel v.rules st
    have h3 := resolveRules_ruleIndex c rc m v.pkgRel v.rules st
    split
    · rename_i st1 h'
      rw [h'] at h2
      exact ⟨_, h2, fun e he => resolveRules_events c rc m v.pkgRel v.rules _ e he⟩
    · rename_i st1 rules h'
      rw [h'] at h2 h3
      simp only at h2 h3
      obtain ⟨evs, ih1, ih2⟩ := ih (st1.log (.MergeFile v.file v.empty rules .PostResolve kinds))
      simp only [log_trace, log_ruleIndex, h3] at ih1 ih2
      have key : (resolveLoop env c rc m kinds vs
          (st1.log (.MergeFile v.file v.empty rules .PostResolve kinds))).1.trace
          = st.trace ++ ((v.rules.takeWhile (hasResolver m)).flatMap
              (resolveEvent c st.ruleIndex rc m v.pkgRel) ++
            Event.MergeFile v.file v.empty rules .PostResolve kinds :: evs) := by
        rw [ih1, h2]; simp
      have cls : ∀ e ∈ ((v.rules.takeWhile (hasResolver m)).flatMap
              (resolveEvent c st.ruleIndex rc m v.pkgRel) ++
            Event.MergeFile v.file v.empty rules .PostResolve kinds :: evs),
          isResolutionEvent st.ruleIndex e := by
        intro e he
        simp only [List.mem_append, List.mem_cons] at he
        rcases he with he | he | he
        · exact resolveRules_events c rc m v.pkgRel v.rules _ e he
        · exact Or.inr ⟨_, _, _, _, he⟩
        · exact ih2 e he
      simp only
      split
      · rename_i h''
        rw [h''] at key
        exact ⟨_, key, cls⟩
      · rename_i h''
        rw [h''] at key
        exact ⟨_, key, cls⟩

theorem emitLoop_trace (env : Env) (c : Config) (uc : updateConfig) (loads : List LoadInfo)
    (vs : List visitRecord) (st : RunState) :
    (emitLoop env c uc loads vs st).trace
      = st.trace ++ vs.flatMap (emissionEvents env c uc loads) := by
  induction vs generalizing st with
  | nil => simp [emitLoop]
  | cons v vs ih =>
    unfold emitLoop
    simp only [List.flatMap_cons, emissionEvents, formatFile]
    split <;> rename_i h <;> simp [ih, h]

theorem emitLoop_ruleIndex (env : Env) (c : Config) (uc : updateConfig) (loads : List LoadInfo)
    (vs : List visitRecord) (st : RunState) :
    (emitLoop env c uc loads vs st).ruleIndex = st.ruleIndex := by
  induction vs generalizing st with
  | nil => simp [emitLoop]
  | cons v vs ih =>
    unfold emitLoop
    simp only
    split <;> simp [ih]

theorem emitLoop_visits (env : Env) (c : Config) (uc : updateConfig) (loads : List LoadInfo)
    (vs : List visitRecord) (st : RunState) :
    (emitLoop env c uc loads vs st).visits = st.visits := by
  induction vs generalizing st with
  | nil => simp [emitLoop]
  | cons v vs ih =>
    unfold emitLoop
    simp only
    split <;> simp [ih]

theorem foldl_shouldFix (root : String) (dirs : List String) (b : Bool) :
    dirs.foldl (fun acc d => if d = root then true else acc) b = (b || decide (root ∈ dirs)) := by
  induction dirs generalizing b with
  | nil => simp
  | cons d ds ih =>
    simp only [List.foldl_cons, ih, List.mem_cons]
    by_cases h : d = root
    · subst h; simp
    · have h' : ¬ root = d := fun e => h e.symm
      simp [h, h']

theorem fixWorkspace_trace (env : Env) (c : Config) (uc : updateConfig) (workspace : File)
    (loads : List LoadInfo) (st : RunState) :
    (fixWorkspace env c uc workspace loads st).1.trace
      = st.trace ++ Event.fixWorkspace c workspace :: workspaceFixCalls env c uc workspace loads := by
  unfold fixWorkspace workspaceFixCalls
  simp only [foldl_shouldFix, Bool.false_or]
  cases hs : c.ShouldFix
  · simp
  · by_cases hm : c.RepoRoot ∈ c.Dirs
    · simp only [Bool.not_true, Bool.false_eq_true, if_false, hm, decide_True, and_self, if_true,
        fixedWorkspace]
      split <;> rename_i h <;> simp [h]
    · simp [hm]

theorem fixWorkspace_ruleIndex (env : Env) (c : Config) (uc : updateConfig) (workspace : File)
    (loads : List LoadInfo) (st : RunState) :
    (fixWorkspace env c uc workspace loads st).1.ruleIndex = st.ruleIndex := by
  unfold fixWorkspace
  simp only
  split
  · rfl
  · split
    · rfl
    · split <;> rfl

theorem fixWorkspace_visits (env : Env) (c : Config) (uc : updateConfig) (workspace : File)
    (loads : List LoadInfo) (st : RunState) :
    (fixWorkspace env c uc workspace loads st).1.visits = st.visits := by
  unfold fixWorkspace
  simp only
  split
  · rfl
  · split
    · rfl
    · split <;> rfl

theorem fixWorkspace_error (env : Env) (c : Config) (uc : updateConfig) (workspace : File)
    (loads : List LoadInfo) (st : RunState) :
    (fixWorkspace env c uc workspace loads st).2.2 = workspaceFixError env c uc workspace loads := by
  unfold fixWorkspace workspaceFixError
  simp only [foldl_shouldFix, Bool.false_or]
  cases hs : c.ShouldFix
  · simp
  · by_cases hm : c.RepoRoot ∈ c.Dirs
    · simp only [Bool.not_true, Bool.false_eq_true, if_false, hm, decide_True, and_self, if_true,
        fixedWorkspace]
      split <;> rename_i h <;> simp [h]
    · simp [hm]

theorem fixWorkspace_file (env : Env) (c : Config) (uc : updateConfig) (workspace : File)
    (loads : List LoadInfo) (st : RunState) :
    (fixWorkspace env c uc workspace loads st).2.1 = workspaceAfterFix env c workspace loads := by
  unfold fixWorkspace workspaceAfterFix
  simp only [foldl_shouldFix, Bool.false_or]
  cases hs : c.ShouldFix
  · simp
  · by_cases hm : c.RepoRoot ∈ c.Dirs
    · simp only [Bool.not_true, Bool.false_eq_true, if_false, hm, decide_True, and_self, if_true,
        fixedWorkspace]
      split <;> rename_i h <;> simp [h]
    · simp [hm]

theorem newFixUpdateConfiguration_trace (env : Env) (cmd : command) (args : List String)
    (loads : List LoadInfo) (st : RunState) :
    (newFixUpdateConfiguration env cmd args loads st).1.trace
      = st.trace ++ configEvents env cmd args loads := by
  unfold newFixUpdateConfiguration configEvents
  simp only
  cases hp : env.Parse args with
  | none => simp
  | some fs =>
    simp only
    cases hc : checkFlags env fs (registerFlags env cmd) with
    | error err => simp
    | ok cu =>
      obtain ⟨c, uc⟩ := cu
      simp only
      cases hl : env.LoadFile (Join [c.RepoRoot, "WORKSPACE"]) with
      | failed err => simp
      | notExist => simp
      | ok workspace =>
        simp only
        have h := fixWorkspace_trace env c uc workspace loads
          ((st.log (.Parse args)).log (.LoadFile (Join [c.RepoRoot, "WORKSPACE"])))
        split <;> rename_i h' <;> rw [h'] at h <;> simp only at h <;> simp [h]

theorem newFixUpdateConfiguration_ruleIndex (env : Env) (cmd : command) (args : List String)
    (loads : List LoadInfo) (st : RunState) :
    (newFixUpdateConfiguration env cmd args loads st).1.ruleIndex = st.ruleIndex := by
  unfold newFixUpdateConfiguration
  simp only
  cases hp : env.Parse args with
  | none => simp
  | some fs =>
    simp only
    cases hc : checkFlags env fs (registerFlags env cmd) with
    | error err => simp
    | ok cu =>
      obtain ⟨c, uc⟩ := cu
      simp only
      cases hl : env.LoadFile (Join [c.RepoRoot, "WORKSPACE"]) with
      | failed err => simp
      | notExist => simp
      | ok workspace =>
        simp only
        have h := fixWorkspace_ruleIndex env c uc workspace loads
          ((st.log (.Parse args)).log (.LoadFile (Join [c.RepoRoot, "WORKSPACE"])))
        split <;> rename_i h' <;> rw [h'] at h <;> simp only at h <;> simp [h]

theorem newFixUpdateConfiguration_visits (env : Env) (cmd : command) (args : List String)
    (loads : List LoadInfo) (st : RunState) :
    (newFixUpdateConfiguration env cmd args loads st).1.visits = st.visits := by
  unfold newFixUpdateConfiguration
  simp only
  cases hp : env.Parse args with
  | none => simp
  | some fs =>
    simp only
    cases hc : checkFlags env fs (registerFlags env cmd) with
    | error err => simp
    | ok cu =>
      obtain ⟨c, uc⟩ := cu
      simp only
      cases hl : env.LoadFile (Join [c.RepoRoot, "WORKSPACE"]) with
      | failed err => simp
      | notExist => simp
      | ok workspace =>
        simp only
        have h := fixWorkspace_visits env c uc workspace loads
          ((st.log (.Parse args)).log (.LoadFile (Join [c.RepoRoot, "WORKSPACE"])))
        split <;> rename_i h' <;> rw [h'] at h <;> simp only at h <;> simp [h]

theorem resolveLoop_none (env : Env) (c : Config) (rc : List Repo)
    (m : GoMap (Nat × Language)) (kinds : GoMap KindInfo) (vs : List visitRecord)
    (st : RunState) (h : ¬ ∀ v ∈ vs, v.rules.all (hasResolver m) = true) :
    (resolveLoop env c rc m kinds vs st).2 = none := by
  induction vs generalizing st with
  | nil => simp at h
  | cons v vs ih =>
    unfold resolveLoop
    have h1 := resolveRules_snd c rc m v.pkgRel v.rules st
    split
    · rfl
    · rename_i st1 rules h'
      rw [h'] at h1
      simp only at h1
      have hv : v.rules.all (hasResolver m) = true := by
        by_contra hv
        rw [if_neg hv] at h1
        simp at h1
      have hvs : ¬ ∀ v' ∈ vs, v'.rules.all (hasResolver m) = true := by
        intro hvs
        apply h
        intro v' hv'
        rcases List.mem_cons.1 hv' with e | e
        · rw [e]; exact hv
        · exact hvs v' e
      have := ih (st1.log (.MergeFile v.file v.empty rules .PostResolve kinds)) hvs
      simp only
      split
      · rfl
      · rename_i h''
        rw [h''] at this
        simp at this

theorem newFixUpdateConfiguration_snd (env : Env) (cmd : command) (args : List String)
    (loads : List LoadInfo) (st : RunState) :
    (newFixUpdateConfiguration env cmd args loads st).2 = configOutcome env cmd args loads := by
  unfold newFixUpdateConfiguration configOutcome
  simp only
  cases hp : env.Parse args with
  | none => simp
  | some fs =>
    simp only
    cases hc : checkFlags env fs (registerFlags env cmd) with
    | error err => simp
    | ok cu =>
      obtain ⟨c, uc⟩ := cu
      simp only
      cases hl : env.LoadFile (Join [c.RepoRoot, "WORKSPACE"]) with
      | failed err => simp
      | notExist => simp
      | ok workspace =>
        simp only
        have h1 := fixWorkspace_error env c uc workspace loads
          ((st.log (.Parse args)).log (.LoadFile (Join [c.RepoRoot, "WORKSPACE"])))
        have h2 := fixWorkspace_file env c uc workspace loads
          ((st.log (.Parse args)).log (.LoadFile (Join [c.RepoRoot, "WORKSPACE"])))
        split <;> rename_i h' <;> rw [h'] at h1 h2 <;> simp only at h1 h2 <;>
          simp [← h1, ← h2]

/-- The state after the walk and `ruleIndex.Finish()`. -/
theorem state_after_finish (env : Env) (cmd : command) (args : List String) (c : Config)
    (st : RunState) (hst : st = (newFixUpdateConfiguration env cmd args (tables env).loads
      initState).1) :
    let st1 := if cmd = .fixCmd then st.log (.CheckRulesGoVersion c.RepoRoot) else st
    let st2 := walkPhase env (tables env).kinds c st1
    ({ st2.log .Finish with ruleIndex := st2.ruleIndex.Finish } : RunState)
      = ⟨walkTrace env cmd args c ++ [Event.Finish], finishedIndex env c, walkVisits env c⟩ := by
  have ht := newFixUpdateConfiguration_trace env cmd args (tables env).loads initState
  have hi := newFixUpdateConfiguration_ruleIndex env cmd args (tables env).loads initState
  have hv := newFixUpdateConfiguration_visits env cmd args (tables env).loads initState
  rw [← hst] at ht hi hv
  simp only [initState, List.nil_append] at ht hi hv
  by_cases hc : cmd = .fixCmd
  · simp [hc, walkPhase_trace, walkPhase_visits, walkPhase_ruleIndex, RunState.log,
      RuleIndex.Finish, walkTrace, walkVisits, finishedIndex, ht, hi, hv, NewRuleIndex]
  · simp [hc, walkPhase_trace, walkPhase_visits, walkPhase_ruleIndex, RunState.log,
      RuleIndex.Finish, walkTrace, walkVisits, finishedIndex, ht, hi, hv, NewRuleIndex]

/-- A run whose configuration fails returns the error, having made only the
calls of the configuration. -/
theorem runFixUpdate_failed (env : Env) (cmd : command) (args : List String) (err : String)
    (h : configOutcome env cmd args (tables env).loads = .failed err) :
    (runFixUpdate env cmd args).2 = .returned (some err) ∧
      (runFixUpdate env cmd args).1.trace = configEvents env cmd args (tables env).loads := by
  have h2 := newFixUpdateConfiguration_snd env cmd args (tables env).loads initState
  have ht := newFixUpdateConfiguration_trace env cmd args (tables env).loads initState
  rw [h] at h2
  unfold runFixUpdate
  simp only
  split <;> rename_i h' <;> rw [h'] at h2 ht <;> simp only at h2 ht
  · cases h2
  · simp only [ConfigResult.failed.injEq] at h2
    simp [h2, ht, initState]
  · cases h2

theorem runFixUpdate_exited (env : Env) (cmd : command) (args : List String)
    (h : configOutcome env cmd args (tables env).loads = .exited) :
    (runFixUpdate env cmd args).2 = .exited ∧
      (runFixUpdate env cmd args).1.trace = configEvents env cmd args (tables env).loads := by
  have h2 := newFixUpdateConfiguration_snd env cmd args (tables env).loads initState
  have ht := newFixUpdateConfiguration_trace env cmd args (tables env).loads initState
  rw [h] at h2
  unfold runFixUpdate
  simp only
  split <;> rename_i h' <;> rw [h'] at h2 ht <;> simp only at h2 ht
  · simp [ht, initState]
  · cases h2
  · cases h2

/-- A run whose configuration succeeds, as the resolution loop and the emission
loop applied to the state after `Finish`. -/
theorem runFixUpdate_ok (env : Env) (cmd : command) (args : List String) (c : Config)
    (uc : updateConfig) (h : configOutcome env cmd args (tables env).loads = .ok c uc) :
    runFixUpdate env cmd args =
      (match resolveLoop env c uc.repos (tables env).kindToResolver (tables env).kinds
          (walkVisits env c)
          ⟨walkTrace env cmd args c ++ [Event.Finish], finishedIndex env c, walkVisits env c⟩ with
        | (st, none) => (st, .panicked)
        | (st, some visits) =>
          (emitLoop env c uc (tables env).loads visits { st with visits := visits },
            .returned none)) := by
  have h2 := newFixUpdateConfiguration_snd env cmd args (tables env).loads initState
  rw [h] at h2
  unfold runFixUpdate
  simp only
  split <;> rename_i h' <;> rw [h'] at h2 <;> simp only at h2
  · cases h2
  · cases h2
  · rename_i st c' uc'
    simp only [ConfigResult.ok.injEq] at h2
    obtain ⟨rfl, rfl⟩ := h2
    have hs := state_after_finish env cmd args c' st (by rw [h'])
    simp only at hs
    have hv := congrArg RunState.visits hs
    simp only at hv
    rw [hs, hv]

theorem configEvents_inConfig (env : Env) (cmd : command) (args : List String)
    (loads : List LoadInfo) (e : Event) (h : e ∈ configEvents env cmd args loads) :
    e.inConfig = true := by
  unfold configEvents at h
  simp only [List.mem_cons] at h
  rcases h with h | h
  · subst h; rfl
  · split at h
    · simp at h
    · split at h
      · simp at h
      · simp only [List.mem_cons] at h
        rcases h with h | h
        · subst h; rfl
        · split at h
          · simp only [List.mem_cons] at h
            rcases h with h | h
            · subst h; rfl
            · unfold workspaceFixCalls at h
              split at h
              · simp only [List.mem_append, List.mem_cons, List.mem_singleton,
                  List.not_mem_nil, or_false] at h
                rcases h with (h | h | h) | h
                · subst h; rfl
                · subst h; rfl
                · subst h; rfl
                · split at h
                  · simp at h
                  · simp only [List.mem_cons, List.mem_singleton, List.not_mem_nil,
                      or_false] at h
                    rcases h with h | h
                    · subst h; rfl
                    · subst h; rfl
              · simp at h
          · simp at h

theorem walkEvents_inWalk (env : Env) (kinds : GoMap KindInfo) (w : WalkCall) (e : Event)
    (h : e ∈ walkEvents env kinds w) : e.inWalk = true := by
  unfold walkEvents at h
  split at h
  · simp only [List.mem_append] at h
    rcases h with (h | h) | h
    · unfold fixEvents at h
      split at h
      · simp at h
      · simp only [List.mem_map] at h
        obtain ⟨k, _, rfl⟩ := h
        rfl
    · unfold generateEvents at h
      simp only [List.mem_map] at h
      obtain ⟨k, _, rfl⟩ := h
      rfl
    · split at h
      · simp only [List.mem_append, List.mem_map] at h
        rcases h with h | h
        · unfold mergeEvents at h
          split at h
          · obtain ⟨r, g, rfl⟩ := mem_insertEvents _ _ _ _ h
            rfl
          · simp only [List.mem_singleton] at h
            subst h; rfl
        · obtain ⟨r, _, rfl⟩ := h
          rfl
      · simp at h
  · split at h
    · simp only [List.mem_map] at h
      obtain ⟨r, _, rfl⟩ := h
      rfl
    · simp at h

theorem emissionEvents_inEmission (env : Env) (c : Config) (uc : updateConfig)
    (loads : List LoadInfo) (v : visitRecord) (e : Event)
    (h : e ∈ emissionEvents env c uc loads v) : e.inEmission = true := by
  unfold emissionEvents at h
  simp only [List.mem_append, List.mem_cons, List.mem_singleton, List.not_mem_nil,
    or_false] at h
  rcases h with (h | h | h | h) | h
  · subst h; rfl
  · subst h; rfl
  · subst h; rfl
  · subst h; rfl
  · split at h
    · simp only [List.mem_singleton] at h
      subst h; rfl
    · simp at h

theorem walkTrace_class (env : Env) (cmd : command) (args : List String) (c : Config)
    (e : Event) (h : e ∈ walkTrace env cmd args c) :
    e.inConfig = true ∨ (∃ root, e = Event.CheckRulesGoVersion root) ∨ e = Event.Walk c ∨
      e.inWalk = true := by
  unfold walkTrace at h
  simp only [List.mem_append, List.mem_cons, List.mem_flatMap] at h
  rcases h with (h | h) | h | h
  · exact Or.inl (configEvents_inConfig _ _ _ _ _ h)
  · split at h
    · simp only [List.mem_singleton] at h
      exact Or.inr (Or.inl ⟨_, h⟩)
    · simp at h
  · exact Or.inr (Or.inr (Or.inl h))
  · obtain ⟨w, _, hw⟩ := h
    exact Or.inr (Or.inr (Or.inr (walkEvents_inWalk _ _ _ _ hw)))

/-- The calls after `Finish`, whether the run completes or panics: calls of the
resolution phase on the finished index, then calls of the emission loop. -/
theorem runFixUpdate_after_finish (env : Env) (cmd : command) (args : List String)
    (c : Config) (uc : updateConfig)
    (h : configOutcome env cmd args (tables env).loads = .ok c uc) :
    ∃ post, (runFixUpdate env cmd args).1.trace
        = walkTrace env cmd args c ++ Event.Finish :: post ∧
      ∀ e ∈ post, isResolutionEvent (finishedIndex env c) e ∨ e.inEmission = true := by
  rw [runFixUpdate_ok env cmd args c uc h]
  obtain ⟨evs, h1, h2⟩ := resolveLoop_events env c uc.repos (tables env).kindToResolver
    (tables env).kinds (walkVisits env c)
    ⟨walkTrace env cmd args c ++ [Event.Finish], finishedIndex env c, walkVisits env c⟩
  simp only at h1 h2
  split
  · rename_i st h'
    rw [h'] at h1
    simp only at h1
    exact ⟨evs, by simp [h1], fun e he => Or.inl (h2 e he)⟩
  · rename_i st visits h'
    rw [h'] at h1
    simp only at h1
    refine ⟨evs ++ visits.flatMap (emissionEvents env c uc (tables env).loads), ?_, ?_⟩
    · simp [emitLoop_trace, h1]
    · intro e he
      simp only [List.mem_append, List.mem_flatMap] at he
      rcases he with he | ⟨v, _, hv⟩
      · exact Or.inl (h2 e he)
      · exact Or.inr (emissionEvents_inEmission _ _ _ _ _ _ hv)

theorem registrations_append (l₁ l₂ : List Event) :
    registrations (l₁ ++ l₂) = registrations l₁ ++ registrations l₂ := by
  simp [registrations, List.filterMap_append]

theorem registrations_eq_nil (l : List Event) (h : ∀ e ∈ l, e.isAddRule = false) :
    registrations l = [] := by
  induction l with
  | nil => rfl
  | cons e l ih =>
    have he := h e (List.mem_cons_self _ _)
    have ih' := ih (fun e' he' => h e' (List.mem_cons_of_mem _ he'))
    unfold registrations at ih' ⊢
    rw [List.filterMap_cons]
    cases e <;> first | exact ih' | exact absurd he (by simp [Event.isAddRule])

theorem registrations_addRules (c : Config) (f : File) (rs : List Rule) :
    registrations (rs.map (fun r => Event.AddRule c r f)) = rs.map (fun r => (r, f)) := by
  induction rs with
  | nil => rfl
  | cons r rs ih =>
    simp only [registrations, List.map_cons, List.filterMap_cons] at ih ⊢
    rw [ih]

theorem registrations_walkEvents (env : Env) (kinds : GoMap KindInfo) (w : WalkCall) :
    registrations (walkEvents env kinds w) = indexedRules env kinds w := by
  unfold walkEvents indexedRules
  split
  · have h1 : registrations (fixEvents env w) = [] := by
      apply registrations_eq_nil
      intro e he
      unfold fixEvents at he
      split at he
      · simp at he
      · simp only [List.mem_map] at he
        obtain ⟨k, _, rfl⟩ := he
        rfl
    have h2 : registrations (generateEvents env w) = [] := by
      apply registrations_eq_nil
      intro e he
      unfold generateEvents at he
      simp only [List.mem_map] at he
      obtain ⟨k, _, rfl⟩ := he
      rfl
    have h3 : registrations (mergeEvents env kinds w) = [] := by
      apply registrations_eq_nil
      intro e he
      unfold mergeEvents at he
      split at he
      · obtain ⟨r, g, rfl⟩ := mem_insertEvents _ _ _ _ he
        rfl
      · simp only [List.mem_singleton] at he
        subst he; rfl
    rw [registrations_append, registrations_append, h1, h2]
    split
    · rw [registrations_append, h3, registrations_addRules]; rfl
    · rfl
  · split
    · exact registrations_addRules _ _ _
    · rfl

theorem registrations_walkTrace (env : Env) (cmd : command) (args : List String) (c : Config) :
    registrations (walkTrace env cmd args c) = (finishedIndex env c).rules := by
  unfold walkTrace finishedIndex
  have h1 : registrations (configEvents env cmd args (tables env).loads) = [] := by
    apply registrations_eq_nil
    intro e he
    have := configEvents_inConfig _ _ _ _ _ he
    cases e <;> simp_all [Event.inConfig, Event.isAddRule]
  have h2 : registrations (if cmd = .fixCmd then [Event.CheckRulesGoVersion c.RepoRoot] else [])
      = [] := by
    split <;> rfl
  have h3 : ∀ ws : List WalkCall, registrations (ws.flatMap (walkEvents env (tables env).kinds))
      = ws.flatMap (indexedRules env (tables env).kinds) := by
    intro ws
    induction ws with
    | nil => rfl
    | cons w ws ih =>
      simp only [List.flatMap_cons, registrations_append, ih, registrations_walkEvents]
  rw [registrations_append, registrations_append, h1, h2]
  have h4 : registrations (Event.Walk c :: (env.Walk c).flatMap (walkEvents env (tables env).kinds))
      = registrations ((env.Walk c).flatMap (walkEvents env (tables env).kinds)) := rfl
  rw [h4, h3]
  rfl

/-- C1. Phase ordering of `runFixUpdate`: whenever the configuration succeeds
(so that the walker is called), whatever the walker delivers and whatever the
plugins return, the trace has the form `pre ++ Finish :: post` where `pre`
contains no `Resolve` and no `Finish` call and `post` contains no `AddRule` and
no `Finish` call.  So every `AddRule` precedes `Finish`, `Finish` is called
exactly once, and every `Resolve` follows it; moreover every `Resolve` call
receives the finished index holding the registrations of all `AddRule` calls. -/
theorem runFixUpdate_phase_ordering (env : Env) (cmd : command) (args : List String)
    (c : Config) (uc : updateConfig)
    (h : (newFixUpdateConfiguration env cmd args (tables env).loads initState).2 = .ok c uc) :
    ∃ pre post, (runFixUpdate env cmd args).1.trace = pre ++ Event.Finish :: post ∧
      (∀ e ∈ pre, e.isResolve = false ∧ e.isFinish = false) ∧
      (∀ e ∈ post, e.isAddRule = false ∧ e.isFinish = false) ∧
      (∀ i c' ix rc r src, Event.Resolve i c' ix rc r src ∈ post →
        ix.finished = true ∧ ix.rules = registrations pre) := by
  rw [newFixUpdateConfiguration_snd] at h
  obtain ⟨post, h1, h2⟩ := runFixUpdate_after_finish env cmd args c uc h
  refine ⟨walkTrace env cmd args c, post, h1, ?_, ?_, ?_⟩
  · intro e he
    rcases walkTrace_class env cmd args c e he with h | ⟨root, h⟩ | h | h
    · cases e <;> simp_all [Event.inConfig, Event.isResolve, Event.isFinish]
    · subst h; exact ⟨rfl, rfl⟩
    · subst h; exact ⟨rfl, rfl⟩
    · cases e <;> simp_all [Event.inWalk, Event.isResolve, Event.isFinish]
  · intro e he
    rcases h2 e he with (⟨i, c', rc, r, src, h⟩ | ⟨f, em, g, k, h⟩) | h
    · subst h; exact ⟨rfl, rfl⟩
    · subst h; exact ⟨rfl, rfl⟩
    · cases e <;> simp_all [Event.inEmission, Event.isAddRule, Event.isFinish]
  · intro i c' ix rc r src he
    rcases h2 _ he with (⟨i', c'', rc', r', src', h⟩ | ⟨f, em, g, k, h⟩) | h
    · simp only [Event.Resolve.injEq] at h
      obtain ⟨-, -, rfl, -⟩ := h
      exact ⟨rfl, (registrations_walkTrace env cmd args c).symm⟩
    · cases h
    · simp [Event.inEmission] at h

theorem runFixUpdate_phase_ordering_witness :
    (newFixUpdateConfiguration (demoEnv "fix" false ["go_library"]) .fixCmd ["/repo"]
        (tables (demoEnv "fix" false ["go_library"])).loads initState).2
        = .ok demoConfig ⟨.fixFile, "", "", []⟩ ∧
      ∃ pre post, (runFixUpdate (demoEnv "fix" false ["go_library"]) .fixCmd ["/repo"]).1.trace
          = pre ++ Event.Finish :: post ∧
        (∀ e ∈ pre, e.isResolve = false ∧ e.isFinish = false) ∧
        (∀ e ∈ post, e.isAddRule = false ∧ e.isFinish = false) ∧
        (∀ i c' ix rc r src, Event.Resolve i c' ix rc r src ∈ post →
          ix.finished = true ∧ ix.rules = registrations pre) :=
  ⟨by decide, runFixUpdate_phase_ordering _ _ _ demoConfig ⟨.fixFile, "", "", []⟩ (by decide)⟩

/-- C4. Out-of-scope directories are registration-only: in a callback with
`update = false` the only calls are one `AddRule` for every rule of the
existing build file, in file order, each with the file as it was delivered (no
`Fix`, `GenerateRules` or `MergeFile`); the index gains exactly these
registrations; no visit record is appended; and the visit records of a whole
walk, the only things the emission loop ranges over, are the same as if the
directory had not been delivered. -/
theorem walkFunc_out_of_scope (env : Env) (kinds : GoMap KindInfo) (st : RunState)
    (w : WalkCall) (hu : w.update = false) :
    (walkFunc env kinds st w).trace
        = st.trace ++ (match w.f with
            | some f => f.Rules.map (fun r => Event.AddRule w.c r f)
            | none => []) ∧
      (walkFunc env kinds st w).ruleIndex.rules
        = st.ruleIndex.rules ++ (match w.f with
            | some f => f.Rules.map (fun r => (r, f))
            | none => []) ∧
      (walkFunc env kinds st w).visits = st.visits ∧
      ∀ (ws₁ ws₂ : List WalkCall) (st' : RunState),
        ((ws₁ ++ w :: ws₂).foldl (walkFunc env kinds) st').visits
          = ((ws₁ ++ ws₂).foldl (walkFunc env kinds) st').visits := by
  have hr : recorded env w = false := by simp [recorded, hu]
  refine ⟨?_, ?_, ?_, ?_⟩
  · rw [walkFunc_trace, walkEvents]
    cases w.f <;> simp [hu]
  · rw [walkFunc_ruleIndex, indexedRules]
    cases w.f <;> simp [hu]
  · rw [walkFunc_visits]
    simp [hr]
  · intro ws₁ ws₂ st'
    rw [foldl_walkFunc_visits, foldl_walkFunc_visits]
    simp [List.filter_append, List.filter_cons, hr]

theorem walkFunc_out_of_scope_witness :
    (⟨"/repo/vendor", "vendor", demoConfig, false, some demoVendor, [], ["v.go"], []⟩ :
        WalkCall).update = false ∧
      (walkFunc (demoEnv "fix" false ["go_library"]) [] initState
          ⟨"/repo/vendor", "vendor", demoConfig, false, some demoVendor, [], ["v.go"], []⟩).trace
        = [Event.AddRule demoConfig ⟨"go_library", "dep", []⟩ demoVendor] ∧
      (walkFunc (demoEnv "fix" false ["go_library"]) [] initState
          ⟨"/repo/vendor", "vendor", demoConfig, false, some demoVendor, [], ["v.go"], []⟩).visits
        = [] :=
  ⟨rfl,
    (walkFunc_out_of_scope (demoEnv "fix" false ["go_library"]) [] initState
      ⟨"/repo/vendor", "vendor", demoConfig, false, some demoVendor, [], ["v.go"], []⟩ rfl).1,
    (walkFunc_out_of_scope (demoEnv "fix" false ["go_library"]) [] initState
      ⟨"/repo/vendor", "vendor", demoConfig, false, some demoVendor, [], ["v.go"], []⟩ rfl).2.2.1⟩

/-- C8. Plugin ordering and accumulation in an in-scope directory.  With
`n` plugins, the calls of the callback are: the `n` `Fix` calls in list order
(only when a build file exists; the `i`-th on the file as fixed by the plugins
before it), then the `n` `GenerateRules` calls in list order, then the rest,
which contains no `Fix` or `GenerateRules` call.  There is a list `results` of
the `n` plugin results such that the `i`-th `GenerateRules` call receives the
concatenations of the empty and of the generated rules of `results` before
position `i`, and `results[i]` is what plugin `i` returns on them.  If the
directory is recorded, the visit record holds the concatenations of all `n`
results, and for an existing file the rest starts with the pre-resolve merge of
exactly these rule sets; otherwise nothing follows and nothing is recorded. -/
theorem walkFunc_plugin_order (env : Env) (kinds : GoMap KindInfo) (st : RunState)
    (w : WalkCall) (hu : w.update = true) :
    ∃ (results : List (List Rule × List Rule)) (rest : List Event),
      results.length = env.languages.length ∧
      (∀ i : Nat, results[i]? = env.languages[i]?.map (fun l =>
        l.GenerateRules w.c w.dir w.rel (w.f.map (fixedBy w.c env.languages))
          w.subdirs w.regularFiles w.genFiles
          ((results.take i).map Prod.fst).flatten ((results.take i).map Prod.snd).flatten)) ∧
      (walkFunc env kinds st w).trace
        = st.trace ++
          (match w.f with
            | none => []
            | some f => (List.range env.languages.length).map
                (fun i => Event.Fix i w.c (fixedBy w.c (env.languages.take i) f))) ++
          (List.range env.languages.length).map (fun i =>
            Event.GenerateRules i w.c w.dir w.rel (w.f.map (fixedBy w.c env.languages))
              w.subdirs w.regularFiles w.genFiles
              ((results.take i).map Prod.fst).flatten ((results.take i).map Prod.snd).flatten) ++
          rest ∧
      (∀ e ∈ rest, e.isFix = false ∧ e.isGenerateRules = false) ∧
      (if w.f = none ∧ (results.map Prod.snd).flatten = [] then
        rest = [] ∧ (walkFunc env kinds st w).visits = st.visits
      else
        (∃ file, (walkFunc env kinds st w).visits
          = st.visits ++ [⟨w.rel, (results.map Prod.snd).flatten,
              (results.map Prod.fst).flatten, file⟩]) ∧
        ∀ f, w.f = some f →
          rest.head? = some (Event.MergeFile (fixedBy w.c env.languages f)
            (results.map Prod.fst).flatten (results.map Prod.snd).flatten .PreResolve kinds)) := by
  refine ⟨pluginResults env w,
    if recorded env w then
      mergeEvents env kinds w ++
        (mergedFile env kinds w).Rules.map (fun r => Event.AddRule w.c r (mergedFile env kinds w))
    else [], ?_, ?_, ?_, ?_, ?_⟩
  · exact generateResults_length _ _ _ _ _
  · intro i
    have := generateResults_getElem? w (fixedFile env w) env.languages [] [] i
    simpa [pluginResults, fixedFile] using this
  · rw [walkFunc_trace]
    simp only [walkEvents, hu, if_true, fixEvents, generateEvents, fixedFile, List.append_assoc]
  · intro e he
    split at he
    · simp only [List.mem_append, List.mem_map] at he
      rcases he with he | ⟨r, _, rfl⟩
      · unfold mergeEvents at he
        split at he
        · obtain ⟨r, g, rfl⟩ := mem_insertEvents _ _ _ _ he
          exact ⟨rfl, rfl⟩
        · simp only [List.mem_singleton] at he
          subst he; exact ⟨rfl, rfl⟩
      · exact ⟨rfl, rfl⟩
    · simp at he
  · have hrec : recorded env w = true ↔
        ¬ (w.f = none ∧ ((pluginResults env w).map Prod.snd).flatten = []) := by
      unfold recorded genRules
      cases hf : w.f <;> cases hg : ((pluginResults env w).map Prod.snd).flatten <;> simp [hu]
    by_cases hr : recorded env w = true
    · rw [if_neg (hrec.1 hr)]
      refine ⟨⟨mergedFile env kinds w, ?_⟩, ?_⟩
      · rw [walkFunc_visits]
        simp [hr, recordOf, genRules, emptyRules]
      · intro f hf
        simp [hr, mergeEvents, fixedFile, hf, genRules, emptyRules]
    · have hnot : w.f = none ∧ ((pluginResults env w).map Prod.snd).flatten = [] := by
        by_contra hcon
        exact hr (hrec.2 hcon)
      rw [if_pos hnot]
      have hr' : recorded env w = false := by simpa using hr
      rw [walkFunc_visits]
      simp [hr']

theorem walkFunc_plugin_order_witness :
    demoRootCall.update = true ∧
      ∃ (results : List (List Rule × List Rule)) (rest : List Event),
        results.length = 1 ∧
        (walkFunc (demoEnv "fix" false ["go_library"]) [] initState demoRootCall).trace
          = [Event.Fix 0 demoConfig demoBuild] ++
            [Event.GenerateRules 0 demoConfig "/repo" "" (some demoBuild) ["vendor", "new"]
              ["a.go"] [] [] []] ++ rest ∧
        ∀ e ∈ rest, e.isFix = false ∧ e.isGenerateRules = false := by
  refine ⟨rfl, ?_⟩
  obtain ⟨results, rest, h1, -, h3, h4, -⟩ :=
    walkFunc_plugin_order (demoEnv "fix" false ["go_library"]) [] initState demoRootCall rfl
  exact ⟨results, rest, h1, h3, h4⟩

theorem countP_isFixWorkspace_workspaceFixCalls (env : Env) (c : Config) (uc : updateConfig)
    (workspace : File) (loads : List LoadInfo) :
    (workspaceFixCalls env c uc workspace loads).countP Event.isFixWorkspace = 0 := by
  unfold workspaceFixCalls
  split
  · split <;> rfl
  · rfl

theorem countP_isFixWorkspace_configEvents (env : Env) (cmd : command) (args : List String)
    (loads : List LoadInfo) :
    (configEvents env cmd args loads).countP Event.isFixWorkspace ≤ 1 := by
  unfold configEvents
  rw [List.countP_cons_of_neg _ _ (by simp [Event.isFixWorkspace])]
  split
  · simp
  · split
    · simp
    · rw [List.countP_cons_of_neg _ _ (by simp [Event.isFixWorkspace])]
      split
      · rw [List.countP_cons_of_pos _ _ (by simp [Event.isFixWorkspace]),
          countP_isFixWorkspace_workspaceFixCalls]
      · simp

theorem countP_eq_zero_of_forall (p : Event → Bool) (l : List Event)
    (h : ∀ e ∈ l, p e = false) : l.countP p = 0 := by
  rw [List.countP_eq_zero]
  intro e he
  simp [h e he]

/-- C7. Workspace-fix guard.  (1) Unless `c.ShouldFix` is true and `c.RepoRoot`
is an element of `c.Dirs`, `fixWorkspace` returns nil with the workspace file
unchanged, and its only trace is its own entry: no `FixWorkspace`, `FixLoads`,
`Sync` and no emitter call.  (2) When the guard holds and `CheckGazelleLoaded`
passes, the emitter is called exactly once, with the fixed and synced workspace
file and that file's own path, and its result is the result of `fixWorkspace`.
(3) `c.ShouldFix` is set by `RegisterFlags` exactly for the command `fix`.
(4) In every run `fixWorkspace` is entered at most once. -/
theorem fixWorkspace_guard (env : Env) (c : Config) (uc : updateConfig) (workspace : File)
    (loads : List LoadInfo) (st : RunState) :
    (¬ (c.ShouldFix = true ∧ c.RepoRoot ∈ c.Dirs) →
      fixWorkspace env c uc workspace loads st
        = (st.log (.fixWorkspace c workspace), workspace, none)) ∧
    (c.ShouldFix = true ∧ c.RepoRoot ∈ c.Dirs →
      env.CheckGazelleLoaded (env.FixLoads (env.FixWorkspace workspace) loads) = none →
      ∃ evs,
        (fixWorkspace env c uc workspace loads st).1.trace = st.trace ++ evs ∧
        evs.filter Event.isEmit
          = [Event.Emit uc.emit c
              (env.Sync (env.FixLoads (env.FixWorkspace workspace) loads)).File
              (env.Sync (env.FixLoads (env.FixWorkspace workspace) loads)).Path] ∧
        (fixWorkspace env c uc workspace loads st).2.1
          = env.Sync (env.FixLoads (env.FixWorkspace workspace) loads) ∧
        (fixWorkspace env c uc workspace loads st).2.2
          = env.emit uc.emit c
              (env.Sync (env.FixLoads (env.FixWorkspace workspace) loads)).File
              (env.Sync (env.FixLoads (env.FixWorkspace workspace) loads)).Path) ∧
    (∀ cmd : command, (updateConfigurer.RegisterFlags cmd.String c).ShouldFix = true ↔
      cmd = .fixCmd) ∧
    (∀ (cmd : command) (args : List String),
      (runFixUpdate env cmd args).1.trace.countP Event.isFixWorkspace ≤ 1) := by
  refine ⟨?_, ?_, ?_, ?_⟩
  · intro hg
    unfold fixWorkspace
    simp only [foldl_shouldFix, Bool.false_or]
    cases hs : c.ShouldFix
    · simp
    · have hm : c.RepoRoot ∉ c.Dirs := fun hm => hg ⟨hs, hm⟩
      simp [hm]
  · intro hg hchk
    refine ⟨Event.fixWorkspace c workspace :: workspaceFixCalls env c uc workspace loads,
      fixWorkspace_trace _ _ _ _ _ _, ?_, ?_, ?_⟩
    · simp [workspaceFixCalls, hg, fixedWorkspace, hchk, List.filter_cons, Event.isEmit]
    · rw [fixWorkspace_file]
      simp [workspaceAfterFix, hg, fixedWorkspace, hchk]
    · rw [fixWorkspace_error]
      simp [workspaceFixError, hg, fixedWorkspace, hchk]
  · intro cmd
    cases cmd <;> simp [updateConfigurer.RegisterFlags, command.String]
  · intro cmd args
    cases h : configOutcome env cmd args (tables env).loads with
    | failed err =>
      rw [(runFixUpdate_failed env cmd args err h).2]
      exact countP_isFixWorkspace_configEvents _ _ _ _
    | exited =>
      rw [(runFixUpdate_exited env cmd args h).2]
      exact countP_isFixWorkspace_configEvents _ _ _ _
    | ok c' uc' =>
      obtain ⟨post, h1, h2⟩ := runFixUpdate_after_finish env cmd args c' uc' h
      rw [h1, List.countP_append, List.countP_cons_of_neg _ _ (by simp [Event.isFixWorkspace])]
      have hpost : post.countP Event.isFixWorkspace = 0 := by
        apply countP_eq_zero_of_forall
        intro e he
        rcases h2 e he with (⟨i, c'', rc, r, src, h⟩ | ⟨f, em, g, k, h⟩) | h
        · subst h; rfl
        · subst h; rfl
        · cases e <;> simp_all [Event.inEmission, Event.isFixWorkspace]
      have hwalk : (walkTrace env cmd args c').countP Event.isFixWorkspace
          = (configEvents env cmd args (tables env).loads).countP Event.isFixWorkspace := by
        unfold walkTrace
        rw [List.countP_append, List.countP_append,
          List.countP_cons_of_neg _ _ (by simp [Event.isFixWorkspace])]
        have h3 : ((env.Walk c').flatMap (walkEvents env (tables env).kinds)).countP
            Event.isFixWorkspace = 0 := by
          apply countP_eq_zero_of_forall
          intro e he
          simp only [List.mem_flatMap] at he
          obtain ⟨w, _, hw⟩ := he
          have := walkEvents_inWalk _ _ _ _ hw
          cases e <;> simp_all [Event.inWalk, Event.isFixWorkspace]
        have h4 : (if cmd = .fixCmd then [Event.CheckRulesGoVersion c'.RepoRoot] else []).countP
            Event.isFixWorkspace = 0 := by
          split <;> rfl
        rw [h3, h4]
        rfl
      rw [hwalk, hpost]
      exact countP_isFixWorkspace_configEvents _ _ _ _

theorem fixWorkspace_guard_witness :
    (¬ (({ demoConfig with ShouldFix := false } : Config).ShouldFix = true ∧
        ({ demoConfig with ShouldFix := false } : Config).RepoRoot
          ∈ ({ demoConfig with ShouldFix := false } : Config).Dirs)) ∧
      fixWorkspace (demoEnv "fix" false []) { demoConfig with ShouldFix := false }
          ⟨.fixFile, "", "", []⟩ demoWorkspace [] initState
        = (initState.log (.fixWorkspace { demoConfig with ShouldFix := false } demoWorkspace),
            demoWorkspace, none) ∧
      (demoConfig.ShouldFix = true ∧ demoConfig.RepoRoot ∈ demoConfig.Dirs) ∧
      (∃ evs,
        (fixWorkspace (demoEnv "fix" false []) demoConfig ⟨.fixFile, "", "", []⟩ demoWorkspace []
            initState).1.trace = initState.trace ++ evs ∧
        evs.filter Event.isEmit
          = [Event.Emit .fixFile demoConfig demoWorkspace.File "/repo/WORKSPACE"]) := by
  have h := fixWorkspace_guard (demoEnv "fix" false []) demoConfig ⟨.fixFile, "", "", []⟩
    demoWorkspace [] initState
  have h' := fixWorkspace_guard (demoEnv "fix" false []) { demoConfig with ShouldFix := false }
    ⟨.fixFile, "", "", []⟩ demoWorkspace [] initState
  refine ⟨by decide, h'.1 (by decide), by decide, ?_⟩
  obtain ⟨evs, h1, h2, -, -⟩ := h.2.1 (by decide) rfl
  exact ⟨evs, h1, h2⟩

theorem badScopeDir_of_outsideRoot (env : Env) (root d : String) (h : outsideRoot env root d) :
    badScopeDir env root d = true := by
  obtain ⟨a, rs, ds, ha, hs, hroot, hr, hd, hp⟩ := h
  simp [badScopeDir, ha, hs, hroot, isDescendingDir_sound rs ds hr hd hp]

theorem checkDirs_ok (env : Env) (root : String) (ds dirs : List String)
    (h : checkDirs env root ds = .ok dirs) : ∀ d ∈ ds, badScopeDir env root d = false := by
  induction ds generalizing dirs with
  | nil => simp
  | cons d ds ih =>
    unfold checkDirs at h
    intro d' hd'
    cases ha : env.Abs d with
    | error e => rw [ha] at h; simp at h
    | ok a =>
      rw [ha] at h
      simp only at h
      cases hs : env.EvalSymlinks a with
      | error e => rw [hs] at h; simp at h
      | ok dir =>
        rw [hs] at h
        simp only at h
        split at h
        · simp at h
        · rename_i hdesc
          cases hrec : checkDirs env root ds with
          | error e => rw [hrec] at h; simp at h
          | ok dirs' =>
            rcases List.mem_cons.1 hd' with e | e
            · subst e
              simp only [badScopeDir, ha, hs]
              simpa using hdesc
            · exact ih dirs' hrec d' e

theorem checkFlags_ok (env : Env) (fs : FlagSet) (c0 c : Config) (uc : updateConfig)
    (h : checkFlags env fs c0 = .ok (c, uc)) :
    ∃ c1, env.CommonCheckFlags c0 = .ok c1 ∧ modeFromName fs.mode ≠ none ∧
      ∀ d ∈ scopeDirs fs, badScopeDir env c1.RepoRoot d = false := by
  unfold checkFlags at h
  cases hc : env.CommonCheckFlags c0 with
  | error e => rw [hc] at h; simp at h
  | ok c1 =>
    refine ⟨c1, rfl, ?_⟩
    rw [hc] at h
    simp only at h
    unfold updateConfigurer.CheckFlags at h
    cases hm : modeFromName fs.mode with
    | none => rw [hm] at h; simp at h
    | some e =>
      rw [hm] at h
      simp only at h
      cases hd : checkDirs env c1.RepoRoot (if fs.Args.length = 0 then ["."] else fs.Args) with
      | error e => rw [hd] at h; simp at h
      | ok dirs => exact ⟨by simp, checkDirs_ok env _ _ dirs hd⟩

theorem modeFromName_eq_none (mode : String)
    (h : mode ≠ "print" ∧ mode ≠ "fix" ∧ mode ≠ "diff") : modeFromName mode = none := by
  simp [modeFromName, h.1, h.2.1, h.2.2]

/-- C3. Fatal configuration errors abort before any file is touched.  In every
invocation whose flags parse, if the `-mode` value is not one of `print`,
`fix`, `diff`, or some scope directory fails absolute-path or symlink
resolution, or resolves to a path outside the tree of the repository root
(or, more generally, to a path that `isDescendingDir` rejects), or
the workspace fix is active (the workspace file loads, the command is `fix`
and the repository root is a scope directory) and `CheckGazelleLoaded` fails,
then `runFixUpdate` returns a non-nil error and its trace contains no call of
the walker and no call of the emitter. -/
theorem runFixUpdate_fatal_configuration (env : Env) (cmd : command) (args : List String)
    (fs : FlagSet) (hp : env.Parse args = some fs)
    (hbad : (fs.mode ≠ "print" ∧ fs.mode ≠ "fix" ∧ fs.mode ≠ "diff") ∨
      (∀ c1, env.CommonCheckFlags (registerFlags env cmd) = .ok c1 →
        ∃ d ∈ scopeDirs fs,
          badScopeDir env c1.RepoRoot d = true ∨ outsideRoot env c1.RepoRoot d) ∨
      (∀ c uc, checkFlags env fs (registerFlags env cmd) = .ok (c, uc) →
        ∃ workspace err, env.LoadFile (Join [c.RepoRoot, "WORKSPACE"]) = .ok workspace ∧
          c.ShouldFix = true ∧ c.RepoRoot ∈ c.Dirs ∧
          env.CheckGazelleLoaded (env.FixLoads (env.FixWorkspace workspace) (tables env).loads)
            = some err)) :
    ∃ err, (runFixUpdate env cmd args).2 = .returned (some err) ∧
      ∀ e ∈ (runFixUpdate env cmd args).1.trace, e.isWalk = false ∧ e.isEmit = false := by
  cases hc : checkFlags env fs (registerFlags env cmd) with
  | error err =>
    have hout : configOutcome env cmd args (tables env).loads = .failed err := by
      simp [configOutcome, hp, hc]
    obtain ⟨h1, h2⟩ := runFixUpdate_failed env cmd args err hout
    refine ⟨err, h1, ?_⟩
    rw [h2]
    intro e he
    simp only [configEvents, hp, hc, List.mem_singleton] at he
    subst he
    exact ⟨rfl, rfl⟩
  | ok cu =>
    obtain ⟨c, uc⟩ := cu
    obtain ⟨c1, hc1, hmode, hdirs⟩ := checkFlags_ok env fs _ c uc hc
    rcases hbad with hb | hb | hb
    · exact absurd (modeFromName_eq_none _ hb) hmode
    · obtain ⟨d, hd, hbd⟩ := hb c1 hc1
      have hbd' : badScopeDir env c1.RepoRoot d = true :=
        hbd.elim id (badScopeDir_of_outsideRoot env _ d)
      rw [hdirs d hd] at hbd'
      cases hbd'
    · obtain ⟨workspace, err, hl, hs, hm, hchk⟩ := hb c uc hc
      have hout : configOutcome env cmd args (tables env).loads = .failed err := by
        simp [configOutcome, hp, hc, hl, workspaceFixError, hs, hm, fixedWorkspace, hchk]
      obtain ⟨h1, h2⟩ := runFixUpdate_failed env cmd args err hout
      refine ⟨err, h1, ?_⟩
      rw [h2]
      intro e he
      simp only [configEvents, hp, hc, hl, workspaceFixCalls, hs, hm, fixedWorkspace, hchk,
        and_self, if_true, List.mem_cons, List.mem_append, List.mem_singleton,
        List.not_mem_nil, or_false] at he
      rcases he with he | he | he | (he | he | he)
      all_goals subst he; exact ⟨rfl, rfl⟩

theorem runFixUpdate_fatal_configuration_witness :
    (demoEnv "bogus" false []).Parse ["/repo"] = some ⟨"bogus", "", "", [], ["/repo"]⟩ ∧
      (("bogus" : String) ≠ "print" ∧ ("bogus" : String) ≠ "fix" ∧ ("bogus" : String) ≠ "diff") ∧
      ∃ err, (runFixUpdate (demoEnv "bogus" false []) .fixCmd ["/repo"]).2
          = .returned (some err) ∧
        ∀ e ∈ (runFixUpdate (demoEnv "bogus" false []) .fixCmd ["/repo"]).1.trace,
          e.isWalk = false ∧ e.isEmit = false :=
  ⟨rfl, by decide,
    runFixUpdate_fatal_configuration (demoEnv "bogus" false []) .fixCmd ["/repo"]
      ⟨"bogus", "", "", [], ["/repo"]⟩ rfl (Or.inl (by decide))⟩

theorem addKinds_get (i : Nat) (lang : Language) (ks : List (String × KindInfo))
    (t : LangTables) (kind : String) :
    (addKinds i lang ks t).kindToResolver.get kind
      = if (ks.map Prod.fst).contains kind then some (i, lang) else t.kindToResolver.get kind := by
  induction ks generalizing t with
  | nil => simp [addKinds]
  | cons k ks ih =>
    obtain ⟨k, info⟩ := k
    simp only [addKinds, ih, List.map_cons, List.contains_cons]
    by_cases h1 : (ks.map Prod.fst).contains kind = true
    · simp only [h1, Bool.or_true, if_true]
    · have h1' : (ks.map Prod.fst).contains kind = false := Bool.eq_false_iff.2 h1
      simp only [h1', Bool.or_false, Bool.false_eq_true, if_false, GoMap.get, GoMap.set,
        List.lookup_cons]
      cases hk : kind == k <;> simp

theorem langTables_get (i : Nat) (ls : List Language) (t : LangTables) (kind : String) :
    (langTables i ls t).kindToResolver.get kind
      = match lastDeclaringFrom i ls kind with
        | some r => some r
        | none => t.kindToResolver.get kind := by
  induction ls generalizing i t with
  | nil => simp [langTables, lastDeclaringFrom]
  | cons l ls ih =>
    simp only [langTables, ih, lastDeclaringFrom]
    cases h : lastDeclaringFrom (i + 1) ls kind with
    | some r => simp
    | none =>
      simp only [addKinds_get, declares]
      split <;> simp

theorem lastDeclaringFrom_some (i : Nat) (ls : List Language) (kind : String) (j : Nat)
    (l : Language) (h : lastDeclaringFrom i ls kind = some (j, l)) :
    ∃ k, j = i + k ∧ IsLastDeclaring ls kind k l := by
  induction ls generalizing i with
  | nil => simp [lastDeclaringFrom] at h
  | cons l0 ls ih =>
    simp only [lastDeclaringFrom] at h
    cases h' : lastDeclaringFrom (i + 1) ls kind with
    | some r =>
      rw [h'] at h
      simp only [Option.some.injEq] at h
      subst h
      obtain ⟨k, hk, h1, h2, h3⟩ := ih (i + 1) h'
      refine ⟨k + 1, by omega, by simpa using h1, h2, ?_⟩
      intro j' l' hj hl
      cases j' with
      | zero => omega
      | succ j' =>
        simp only [List.getElem?_cons_succ] at hl
        exact h3 j' l' (by omega) hl
    | none =>
      rw [h'] at h
      simp only at h
      split at h
      · rename_i hd
        simp only [Option.some.injEq, Prod.mk.injEq] at h
        obtain ⟨rfl, rfl⟩ := h
        refine ⟨0, rfl, by simp, hd, ?_⟩
        intro j' l' hj hl
        cases j' with
        | zero => omega
        | succ j' =>
          simp only [List.getElem?_cons_succ] at hl
          by_contra hcon
          have hcon' : declares l' kind = true := by simpa using hcon
          have : ∀ (i' : Nat) (ls' : List Language) (n : Nat) (l'' : Language),
              ls'[n]? = some l'' → declares l'' kind = true →
              lastDeclaringFrom i' ls' kind ≠ none := by
            intro i' ls'
            induction ls' generalizing i' with
            | nil => intro n l'' hn; simp at hn
            | cons a as iha =>
              intro n l'' hn hdec
              simp only [lastDeclaringFrom]
              cases n with
              | zero =>
                simp only [List.getElem?_cons_zero, Option.some.injEq] at hn
                subst hn
                cases lastDeclaringFrom (i' + 1) as kind <;> simp [hdec]
              | succ n =>
                simp only [List.getElem?_cons_succ] at hn
                have := iha (i' + 1) n l'' hn hdec
                cases hx : lastDeclaringFrom (i' + 1) as kind with
                | none => exact absurd hx this
                | some r => simp
          exact this (i + 1) ls j' l' hl hcon' h'
      · cases h

theorem lastDeclaringFrom_of_mem (i : Nat) (ls : List Language) (kind : String)
    (h : ∃ l ∈ ls, declares l kind = true) : (lastDeclaringFrom i ls kind).isSome = true := by
  induction ls generalizing i with
  | nil => simp at h
  | cons l0 ls ih =>
    simp only [lastDeclaringFrom]
    cases h' : lastDeclaringFrom (i + 1) ls kind with
    | some r => simp
    | none =>
      obtain ⟨l, hl, hd⟩ := h
      rcases List.mem_cons.1 hl with e | e
      · subst e; simp [hd]
      · have := ih (i + 1) ⟨l, e, hd⟩
        rw [h'] at this
        simp at this

/-- The resolver table of a run maps a kind to the last plugin declaring it. -/
theorem tables_get (env : Env) (kind : String) :
    (tables env).kindToResolver.get kind = lastDeclaringFrom 0 env.languages kind := by
  unfold tables
  rw [langTables_get]
  cases lastDeclaringFrom 0 env.languages kind <;> rfl

theorem tables_get_of_declared (env : Env) (kind : String)
    (h : ∃ l ∈ env.languages, declares l kind = true) :
    ∃ i l, (tables env).kindToResolver.get kind = some (i, l) ∧
      IsLastDeclaring env.languages kind i l := by
  have h1 := lastDeclaringFrom_of_mem 0 env.languages kind h
  rw [tables_get]
  cases h2 : lastDeclaringFrom 0 env.languages kind with
  | none => rw [h2] at h1; simp at h1
  | some r =>
    obtain ⟨j, l⟩ := r
    obtain ⟨k, hk, hl⟩ := lastDeclaringFrom_some 0 env.languages kind j l h2
    have : j = k := by omega
    subst this
    exact ⟨j, l, rfl, hl⟩

theorem flatMap_resolveEvent (c : Config) (ix : RuleIndex) (rc : List Repo)
    (m : GoMap (Nat × Language)) (p : String) (rs : List Rule)
    (h : rs.all (hasResolver m) = true) :
    rs.flatMap (resolveEvent c ix rc m p)
      = rs.map (fun r => Event.Resolve (resolverOf m r.kind).1 c ix rc r
          (Label.New c.RepoName p r.name)) := by
  induction rs with
  | nil => rfl
  | cons r rs ih =>
    simp only [List.all_cons, Bool.and_eq_true] at h
    simp only [List.flatMap_cons, List.map_cons, ih h.2]
    have h1 := h.1
    unfold hasResolver at h1
    cases hg : m.get r.kind with
    | none => rw [hg] at h1; simp at h1
    | some il => simp [resolveEvent, resolverOf, hg]

theorem map_resolved (c : Config) (ix : RuleIndex) (rc : List Repo)
    (m : GoMap (Nat × Language)) (p : String) (rs : List Rule)
    (h : rs.all (hasResolver m) = true) :
    rs.map (resolved c ix rc m p)
      = rs.map (fun r => (resolverOf m r.kind).2.Resolve c ix rc r
          (Label.New c.RepoName p r.name)) := by
  induction rs with
  | nil => rfl
  | cons r rs ih =>
    simp only [List.all_cons, Bool.and_eq_true] at h
    simp only [List.map_cons, ih h.2]
    have h1 := h.1
    unfold hasResolver at h1
    cases hg : m.get r.kind with
    | none => rw [hg] at h1; simp at h1
    | some il => simp [resolved, resolverOf, hg]

theorem flatMap_resolutionEvents (c : Config) (ix : RuleIndex) (rc : List Repo)
    (m : GoMap (Nat × Language)) (kinds : GoMap KindInfo) (vs : List visitRecord)
    (h : ∀ v ∈ vs, v.rules.all (hasResolver m) = true) :
    vs.flatMap (resolutionEvents c ix rc m kinds)
      = vs.flatMap (fun v =>
          v.rules.map (fun r => Event.Resolve (resolverOf m r.kind).1 c ix rc r
            (Label.New c.RepoName v.pkgRel r.name)) ++
          [Event.MergeFile v.file v.empty
            (v.rules.map (fun r => (resolverOf m r.kind).2.Resolve c ix rc r
              (Label.New c.RepoName v.pkgRel r.name))) .PostResolve kinds]) := by
  induction vs with
  | nil => rfl
  | cons v vs ih =>
    have hv := h v (List.mem_cons_self _ _)
    simp only [List.flatMap_cons, ih (fun v' hv' => h v' (List.mem_cons_of_mem _ hv')),
      resolutionEvents, flatMap_resolveEvent _ _ _ _ _ _ hv, map_resolved _ _ _ _ _ _ hv]

/-- A run whose configuration succeeds and whose generated rules all have a
resolver completes, with the calls of the resolution phase and of the emission
loop after `Finish`. -/
theorem runFixUpdate_complete (env : Env) (cmd : command) (args : List String) (c : Config)
    (uc : updateConfig) (h : configOutcome env cmd args (tables env).loads = .ok c uc)
    (hall : ∀ v ∈ walkVisits env c, v.rules.all (hasResolver (tables env).kindToResolver) = true) :
    (runFixUpdate env cmd args).2 = .returned none ∧
    (runFixUpdate env cmd args).1.visits
      = (walkVisits env c).map (resolvedRecord env c (finishedIndex env c) uc.repos
          (tables env).kindToResolver (tables env).kinds) ∧
    (runFixUpdate env cmd args).1.trace
      = walkTrace env cmd args c ++ Event.Finish ::
          ((walkVisits env c).flatMap (resolutionEvents c (finishedIndex env c) uc.repos
            (tables env).kindToResolver (tables env).kinds) ++
          ((walkVisits env c).map (resolvedRecord env c (finishedIndex env c) uc.repos
            (tables env).kindToResolver (tables env).kinds)).flatMap
              (emissionEvents env c uc (tables env).loads)) := by
  rw [runFixUpdate_ok env cmd args c uc h]
  obtain ⟨h1, h2⟩ := resolveLoop_ok env c uc.repos (tables env).kindToResolver (tables env).kinds
    (walkVisits env c)
    ⟨walkTrace env cmd args c ++ [Event.Finish], finishedIndex env c, walkVisits env c⟩ hall
  simp only at h1 h2
  split
  · rename_i h'
    rw [h'] at h1
    simp at h1
  · rename_i st visits h'
    rw [h'] at h1 h2
    simp only [Option.some.injEq] at h1
    simp only at h2
    subst h1
    refine ⟨rfl, ?_, ?_⟩
    · rw [emitLoop_visits]
    · rw [emitLoop_trace]
      simp [h2]

/-- A run whose configuration succeeds panics exactly when some generated rule
has no resolver. -/
theorem runFixUpdate_panicked_iff (env : Env) (cmd : command) (args : List String) (c : Config)
    (uc : updateConfig) (h : configOutcome env cmd args (tables env).loads = .ok c uc) :
    ((runFixUpdate env cmd args).2 = .panicked ↔
      ¬ ∀ v ∈ walkVisits env c, v.rules.all (hasResolver (tables env).kindToResolver) = true) ∧
    ((runFixUpdate env cmd args).2 = .panicked ∨ (runFixUpdate env cmd args).2 = .returned none) := by
  by_cases hall : ∀ v ∈ walkVisits env c,
      v.rules.all (hasResolver (tables env).kindToResolver) = true
  · have := (runFixUpdate_complete env cmd args c uc h hall).1
    rw [this]
    exact ⟨⟨fun hx => (by cases hx), fun hx => absurd hall hx⟩, Or.inr rfl⟩
  · have hn := resolveLoop_none env c uc.repos (tables env).kindToResolver (tables env).kinds
      (walkVisits env c)
      ⟨walkTrace env cmd args c ++ [Event.Finish], finishedIndex env c, walkVisits env c⟩ hall
    have : (runFixUpdate env cmd args).2 = .panicked := by
      rw [runFixUpdate_ok env cmd args c uc h]
      split
      · rfl
      · rename_i h'
        rw [h'] at hn
        simp at hn
    rw [this]
    exact ⟨⟨fun _ => hall, fun _ => rfl⟩, Or.inl rfl⟩

theorem hasResolver_of_declared (env : Env) (r : Rule)
    (h : ∃ l ∈ env.languages, declares l r.kind = true) :
    hasResolver (tables env).kindToResolver r = true := by
  obtain ⟨i, l, hg, -⟩ := tables_get_of_declared env r.kind h
  simp [hasResolver, hg]

theorem resolverOf_of_declared (env : Env) (kind : String)
    (h : ∃ l ∈ env.languages, declares l kind = true) :
    IsLastDeclaring env.languages kind (resolverOf (tables env).kindToResolver kind).1
      (resolverOf (tables env).kindToResolver kind).2 := by
  obtain ⟨i, l, hg, hl⟩ := tables_get_of_declared env kind h
  simpa [resolverOf, hg] using hl

/-- C9 (as amended). Resolution coverage.  When the configuration succeeds and
every generated rule of every visit record has a kind declared by some plugin,
the run does not panic and returns nil, and the calls after `Finish` start, for
every visit record in the order the walk inserted them, with one `Resolve` call
per generated rule, in order, made on the last plugin of the list that declares
the rule's kind, with the finished index (holding all registrations of the
walk) and the label `(c.RepoName, pkgRel, r.Name())`, followed by one
post-resolve `MergeFile` call on the record's file, empty set and (resolved)
generated set.  No other `Resolve` call and no other `MergeFile` call occurs
before or after. -/
theorem runFixUpdate_resolution_coverage (env : Env) (cmd : command) (args : List String)
    (c : Config) (uc : updateConfig)
    (h : (newFixUpdateConfiguration env cmd args (tables env).loads initState).2 = .ok c uc)
    (hk : ∀ v ∈ walkVisits env c, ∀ r ∈ v.rules, ∃ l ∈ env.languages, declares l r.kind = true) :
    ∃ (res : String → Nat × Language) (ix : RuleIndex) (pre post : List Event),
      (runFixUpdate env cmd args).2 = .returned none ∧
      (∀ st, (walkPhase env (tables env).kinds c st).visits = st.visits ++ walkVisits env c) ∧
      (∀ v ∈ walkVisits env c, ∀ r ∈ v.rules,
        IsLastDeclaring env.languages r.kind (res r.kind).1 (res r.kind).2) ∧
      (runFixUpdate env cmd args).1.trace = pre ++ Event.Finish ::
        ((walkVisits env c).flatMap (fun v =>
          v.rules.map (fun r => Event.Resolve (res r.kind).1 c ix uc.repos r
            (Label.New c.RepoName v.pkgRel r.name)) ++
          [Event.MergeFile v.file v.empty
            (v.rules.map (fun r => (res r.kind).2.Resolve c ix uc.repos r
              (Label.New c.RepoName v.pkgRel r.name))) .PostResolve (tables env).kinds]) ++
          post) ∧
      (∀ e ∈ pre, e.isResolve = false ∧ e.isFinish = false) ∧
      (∀ e ∈ post, e.isResolve = false ∧ e.isMergeFile = false) ∧
      ix.finished = true ∧ ix.rules = registrations pre := by
  rw [newFixUpdateConfiguration_snd] at h
  have hall : ∀ v ∈ walkVisits env c,
      v.rules.all (hasResolver (tables env).kindToResolver) = true := by
    intro v hv
    rw [List.all_eq_true]
    intro r hr
    exact hasResolver_of_declared env r (hk v hv r hr)
  obtain ⟨h1, -, h3⟩ := runFixUpdate_complete env cmd args c uc h hall
  refine ⟨resolverOf (tables env).kindToResolver, finishedIndex env c, walkTrace env cmd args c,
    ((walkVisits env c).map (resolvedRecord env c (finishedIndex env c) uc.repos
      (tables env).kindToResolver (tables env).kinds)).flatMap
        (emissionEvents env c uc (tables env).loads), h1, ?_, ?_, ?_, ?_, ?_, rfl,
    (registrations_walkTrace env cmd args c).symm⟩
  · intro st
    exact walkPhase_visits env _ c st
  · intro v hv r hr
    exact resolverOf_of_declared env r.kind (hk v hv r hr)
  · rw [h3, flatMap_resolutionEvents _ _ _ _ _ _ hall]
  · intro e he
    rcases walkTrace_class env cmd args c e he with h | ⟨root, h⟩ | h | h
    · cases e <;> simp_all [Event.inConfig, Event.isResolve, Event.isFinish]
    · subst h; exact ⟨rfl, rfl⟩
    · subst h; exact ⟨rfl, rfl⟩
    · cases e <;> simp_all [Event.inWalk, Event.isResolve, Event.isFinish]
  · intro e he
    simp only [List.mem_flatMap] at he
    obtain ⟨v, _, hv⟩ := he
    have := emissionEvents_inEmission _ _ _ _ _ _ hv
    cases e <;> simp_all [Event.inEmission, Event.isResolve, Event.isMergeFile]

theorem runFixUpdate_resolution_coverage_witness :
    (newFixUpdateConfiguration (demoEnv "fix" false ["go_library"]) .fixCmd ["/repo"]
        (tables (demoEnv "fix" false ["go_library"])).loads initState).2
        = .ok demoConfig ⟨.fixFile, "", "", []⟩ ∧
      (∀ v ∈ walkVisits (demoEnv "fix" false ["go_library"]) demoConfig, ∀ r ∈ v.rules,
        ∃ l ∈ (demoEnv "fix" false ["go_library"]).languages, declares l r.kind = true) ∧
      (runFixUpdate (demoEnv "fix" false ["go_library"]) .fixCmd ["/repo"]).2 = .returned none := by
  refine ⟨by decide, by decide, ?_⟩
  obtain ⟨res, ix, pre, post, h, -⟩ :=
    runFixUpdate_resolution_coverage (demoEnv "fix" false ["go_library"]) .fixCmd ["/repo"]
      demoConfig ⟨.fixFile, "", "", []⟩ (by decide) (by decide)
  exact h

/-- C9, as stated, fails: the plugin of the demo repository declares
`go_library` and generates, in the root directory, a rule of the undeclared
kind `unknown_kind` followed by the rule `lib` of kind `go_library`.  The call
through the missing resolver of the first rule panics, so `Resolve` is never
invoked on the `go_library` rule although its kind is declared. -/
theorem resolve_not_invoked_after_missing_resolver :
    (runFixUpdate (demoEnv "fix" false ["unknown_kind", "go_library"]) .updateCmd ["/repo"]).2
        = .panicked ∧
      (runFixUpdate (demoEnv "fix" false ["unknown_kind", "go_library"]) .updateCmd
          ["/repo"]).1.visits.map (fun v => v.rules)
        = [[⟨"unknown_kind", "lib", []⟩, ⟨"go_library", "lib", []⟩],
            [⟨"unknown_kind", "lib", []⟩, ⟨"go_library", "lib", []⟩]] ∧
      declares (demoLang ["unknown_kind", "go_library"]) "go_library" = true ∧
      (runFixUpdate (demoEnv "fix" false ["unknown_kind", "go_library"]) .updateCmd
          ["/repo"]).1.trace.filter Event.isResolve = [] := by
  decide

theorem filter_isEmit_emissionEvents (env : Env) (c : Config) (uc : updateConfig)
    (loads : List LoadInfo) (vs : List visitRecord) :
    (vs.flatMap (emissionEvents env c uc loads)).filter Event.isEmit
      = vs.map (fun v => Event.Emit uc.emit c (formatFile env loads v.file).File
          (emitPath uc v.pkgRel (formatFile env loads v.file))) := by
  induction vs with
  | nil => rfl
  | cons v vs ih =>
    simp only [List.flatMap_cons, List.filter_append, ih, List.map_cons, emissionEvents]
    split <;> simp [List.filter_cons, Event.isEmit]

theorem filter_eq_nil_of_forall (p : Event → Bool) (l : List Event)
    (h : ∀ e ∈ l, p e = false) : l.filter p = [] := by
  rw [List.filter_eq_nil_iff]
  intro e he
  simp [h e he]

theorem filter_isEmit_resolutionEvents (c : Config) (ix : RuleIndex) (rc : List Repo)
    (m : GoMap (Nat × Language)) (kinds : GoMap KindInfo) (vs : List visitRecord) :
    (vs.flatMap (resolutionEvents c ix rc m kinds)).filter Event.isEmit = [] := by
  apply filter_eq_nil_of_forall
  intro e he
  simp only [List.mem_flatMap, resolutionEvents, List.mem_append, List.mem_singleton] at he
  obtain ⟨v, _, ⟨r, _, hr⟩ | hm⟩ := he
  · unfold resolveEvent at hr
    split at hr
    · simp only [List.mem_singleton] at hr
      subst hr; rfl
    · simp at hr
  · subst hm; rfl

/-- C5, as stated, fails: in the demo repository, `gazelle update /repo` has a
valid configuration and the walker delivers two directories that are in scope
and have a build file or a generated rule (the root and `new`), but the plugin
generates a rule of the undeclared kind `unknown_kind`; the call through its
missing resolver panics before the emission loop, and the emitter is never
invoked. -/
theorem emit_not_invoked_after_missing_resolver :
    (newFixUpdateConfiguration (demoEnv "fix" false ["unknown_kind", "go_library"]) .updateCmd
        ["/repo"] (tables (demoEnv "fix" false ["unknown_kind", "go_library"])).loads
        initState).2
        = .ok { demoConfig with ShouldFix := false } ⟨.fixFile, "", "", []⟩ ∧
      (((demoEnv "fix" false ["unknown_kind", "go_library"]).Walk
          { demoConfig with ShouldFix := false }).filter (fun w =>
            w.update && (w.f.isSome ||
              !(genRules (demoEnv "fix" false ["unknown_kind", "go_library"]) w).isEmpty))).map
          (fun w => w.rel) = ["", "new"] ∧
      (runFixUpdate (demoEnv "fix" false ["unknown_kind", "go_library"]) .updateCmd ["/repo"]).2
        = .panicked ∧
      (runFixUpdate (demoEnv "fix" false ["unknown_kind", "go_library"]) .updateCmd
          ["/repo"]).1.trace.filter Event.isEmit = [] := by
  decide

/-- C5 (as amended). Emission is isolated per file and covers exactly the
recorded directories.  When the configuration succeeds and every rule
generated in an in-scope directory has a kind declared by some plugin, then,
whatever the walker delivers and whatever the emitter returns, the emitter
calls after `Finish` are exactly one call per visit record, in order; the visit
records correspond, in the order of delivery, to the delivered directories that
are in scope and have an existing build file or at least one generated rule;
and the run returns nil. -/
theorem runFixUpdate_emission (env : Env) (cmd : command) (args : List String)
    (c : Config) (uc : updateConfig)
    (h : (newFixUpdateConfiguration env cmd args (tables env).loads initState).2 = .ok c uc)
    (hk : ∀ w ∈ env.Walk c, w.update = true →
      ∀ r ∈ genRules env w, ∃ l ∈ env.languages, declares l r.kind = true) :
    ∃ (pre post : List Event) (visits : List visitRecord),
      (runFixUpdate env cmd args).1.trace = pre ++ Event.Finish :: post ∧
      (∀ e ∈ pre, e.isFinish = false) ∧
      (runFixUpdate env cmd args).1.visits = visits ∧
      visits.map (fun v => v.pkgRel)
        = ((env.Walk c).filter (fun w =>
            w.update && (w.f.isSome || !(genRules env w).isEmpty))).map (fun w => w.rel) ∧
      post.filter Event.isEmit
        = visits.map (fun v => Event.Emit uc.emit c
            (formatFile env (tables env).loads v.file).File
            (emitPath uc v.pkgRel (formatFile env (tables env).loads v.file))) ∧
      (runFixUpdate env cmd args).2 = .returned none := by
  rw [newFixUpdateConfiguration_snd] at h
  have hall : ∀ v ∈ walkVisits env c,
      v.rules.all (hasResolver (tables env).kindToResolver) = true := by
    intro v hv
    simp only [walkVisits, List.mem_map, List.mem_filter] at hv
    obtain ⟨w, ⟨hw, hrec⟩, rfl⟩ := hv
    have hu : w.update = true := by
      simp only [recorded, Bool.and_eq_true] at hrec
      exact hrec.1
    rw [List.all_eq_true]
    intro r hr
    exact hasResolver_of_declared env r (hk w hw hu r hr)
  obtain ⟨h1, h2, h3⟩ := runFixUpdate_complete env cmd args c uc h hall
  refine ⟨walkTrace env cmd args c, _, _, h3, ?_, h2, ?_, ?_, h1⟩
  · intro e he
    rcases walkTrace_class env cmd args c e he with h | ⟨root, h⟩ | h | h
    · cases e <;> simp_all [Event.inConfig, Event.isFinish]
    · subst h; rfl
    · subst h; rfl
    · cases e <;> simp_all [Event.inWalk, Event.isFinish]
  · simp only [walkVisits, List.map_map]
    have : (fun w => recorded env w) = (fun w : WalkCall =>
        w.update && (w.f.isSome || !(genRules env w).isEmpty)) := rfl
    rw [← this]
    apply List.map_congr_left
    intro w _
    rfl
  · rw [List.filter_append, filter_isEmit_resolutionEvents, filter_isEmit_emissionEvents]
    rfl

theorem runFixUpdate_emission_witness :
    (newFixUpdateConfiguration (demoEnv "fix" true ["go_library"]) .updateCmd ["/repo"]
        (tables (demoEnv "fix" true ["go_library"])).loads initState).2
        = .ok { demoConfig with ShouldFix := false } ⟨.fixFile, "", "", []⟩ ∧
      (∀ w ∈ (demoEnv "fix" true ["go_library"]).Walk { demoConfig with ShouldFix := false },
        w.update = true → ∀ r ∈ genRules (demoEnv "fix" true ["go_library"]) w,
          ∃ l ∈ (demoEnv "fix" true ["go_library"]).languages, declares l r.kind = true) ∧
      ∃ (pre post : List Event) (visits : List visitRecord),
        (runFixUpdate (demoEnv "fix" true ["go_library"]) .updateCmd ["/repo"]).1.trace
          = pre ++ Event.Finish :: post ∧
        visits.map (fun v => v.pkgRel) = ["", "new"] ∧
        (post.filter Event.isEmit).length = 2 ∧
        (runFixUpdate (demoEnv "fix" true ["go_library"]) .updateCmd ["/repo"]).2
          = .returned none := by
  refine ⟨by decide, by decide, ?_⟩
  obtain ⟨pre, post, visits, h1, -, -, h4, h5, h6⟩ :=
    runFixUpdate_emission (demoEnv "fix" true ["go_library"]) .updateCmd ["/repo"]
      { demoConfig with ShouldFix := false } ⟨.fixFile, "", "", []⟩ (by decide) (by decide)
  have h4' : visits.map (fun v => v.pkgRel) = ["", "new"] := by
    rw [h4]
    decide
  refine ⟨pre, post, visits, h1, h4', ?_, h6⟩
  rw [h5, List.length_map, ← List.length_map visits (fun v => v.pkgRel), h4']
  rfl

/-- C10. Output path remapping changes only the destination.  The emitter
calls of the emission loop are one per visit record, in order; the path handed
over is the file's own `Path` when the output directory is empty (whatever the
suffix), and `Join(outDir, pkgRel, Base(file.Path) + outSuffix)` otherwise;
the file handed over is the record's file after `FixLoads`, `Sync` and
`Rewrite`, which depends neither on the output directory nor on the suffix;
and the visit records, with their files and paths, are left as they were. -/
theorem emitLoop_output_path (env : Env) (c : Config) (uc : updateConfig)
    (loads : List LoadInfo) (vs : List visitRecord) (st : RunState) :
    ∃ evs, (emitLoop env c uc loads vs st).trace = st.trace ++ evs ∧
      evs.filter Event.isEmit
        = vs.map (fun v => Event.Emit uc.emit c (formatFile env loads v.file).File
            (if uc.outDir = "" then (formatFile env loads v.file).Path
              else Join [uc.outDir, v.pkgRel,
                Base (formatFile env loads v.file).Path ++ uc.outSuffix])) ∧
      evs.filterMap Event.emittedFile = vs.map (fun v => (formatFile env loads v.file).File) ∧
      (emitLoop env c uc loads vs st).visits = st.visits := by
  refine ⟨vs.flatMap (emissionEvents env c uc loads), emitLoop_trace _ _ _ _ _ _, ?_, ?_,
    emitLoop_visits _ _ _ _ _ _⟩
  · rw [filter_isEmit_emissionEvents]
    apply List.map_congr_left
    intro v _
    unfold emitPath
    by_cases ho : uc.outDir = "" <;> simp [ho]
  · induction vs with
    | nil => rfl
    | cons v vs ih =>
      simp only [List.flatMap_cons, List.filterMap_append, ih, List.map_cons, emissionEvents]
      split <;> simp [List.filterMap_cons, Event.emittedFile]

/-- C6, as stated, fails: in the demo repository `gazelle fix /repo` has a
valid configuration (the mode `fix` is recognized, the scope directory `/repo`
is the repository root, the workspace file loads and `CheckGazelleLoaded`
passes), the emitter fails on every file, and `runFixUpdate` returns the
emitter's error for the workspace file; the walker is never called. -/
theorem workspace_emit_failure_is_returned :
    checkFlags (demoEnv "fix" true ["go_library"]) ⟨"fix", "", "", [], ["/repo"]⟩
        (registerFlags (demoEnv "fix" true ["go_library"]) .fixCmd)
        = .ok ({ demoConfig with RepoName := "" }, ⟨.fixFile, "", "", []⟩) ∧
      (demoEnv "fix" true ["go_library"]).LoadFile "/repo/WORKSPACE" = .ok demoWorkspace ∧
      (demoEnv "fix" true ["go_library"]).CheckGazelleLoaded demoWorkspace = none ∧
      (runFixUpdate (demoEnv "fix" true ["go_library"]) .fixCmd ["/repo"]).2
        = .returned (some "cannot write /repo/WORKSPACE") ∧
      (runFixUpdate (demoEnv "fix" true ["go_library"]) .fixCmd ["/repo"]).1.trace.filter
        Event.isWalk = [] := by
  decide

/-- C6 (as amended). For every invocation whose configuration validates (the
flags parse, every `CheckFlags` passes, the workspace file loads or does not
exist, and `CheckGazelleLoaded` passes on the fixed workspace file):
(1) when the workspace fix is active and the emitter fails on the workspace
file, `runFixUpdate` returns that error and the walker is never called;
(2) otherwise `runFixUpdate` never returns an error, whatever the emitter
returns for the build files of the main pipeline: it returns nil, unless the
resolution phase panics, which it does not when every generated rule has a
kind declared by some plugin. -/
theorem runFixUpdate_emitter_failure (env : Env) (cmd : command) (args : List String)
    (fs : FlagSet) (c : Config) (uc : updateConfig)
    (hp : env.Parse args = some fs)
    (hc : checkFlags env fs (registerFlags env cmd) = .ok (c, uc))
    (hl : ∀ err, env.LoadFile (Join [c.RepoRoot, "WORKSPACE"]) ≠ .failed err)
    (hb : ∀ workspace, env.LoadFile (Join [c.RepoRoot, "WORKSPACE"]) = .ok workspace →
      env.CheckGazelleLoaded (env.FixLoads (env.FixWorkspace workspace) (tables env).loads)
        = none) :
    (∀ workspace err, env.LoadFile (Join [c.RepoRoot, "WORKSPACE"]) = .ok workspace →
      c.ShouldFix = true → c.RepoRoot ∈ c.Dirs →
      env.emit uc.emit c
          (env.Sync (env.FixLoads (env.FixWorkspace workspace) (tables env).loads)).File
          (env.Sync (env.FixLoads (env.FixWorkspace workspace) (tables env).loads)).Path
        = some err →
      (runFixUpdate env cmd args).2 = .returned (some err) ∧
        ∀ e ∈ (runFixUpdate env cmd args).1.trace, e.isWalk = false) ∧
    ((∀ workspace, env.LoadFile (Join [c.RepoRoot, "WORKSPACE"]) = .ok workspace →
      c.ShouldFix = true → c.RepoRoot ∈ c.Dirs →
      env.emit uc.emit c
          (env.Sync (env.FixLoads (env.FixWorkspace workspace) (tables env).loads)).File
          (env.Sync (env.FixLoads (env.FixWorkspace workspace) (tables env).loads)).Path
        = none) →
      ∃ c' uc',
        (newFixUpdateConfiguration env cmd args (tables env).loads initState).2 = .ok c' uc' ∧
        ((runFixUpdate env cmd args).2 = .returned none ∨
          (runFixUpdate env cmd args).2 = .panicked) ∧
        ((∀ v ∈ walkVisits env c', ∀ r ∈ v.rules,
            ∃ l ∈ env.languages, declares l r.kind = true) →
          (runFixUpdate env cmd args).2 = .returned none)) := by
  constructor
  · intro workspace err hw hs hm he
    have hout : configOutcome env cmd args (tables env).loads = .failed err := by
      simp [configOutcome, hp, hc, hw, workspaceFixError, hs, hm, fixedWorkspace, hb workspace hw,
        he]
    obtain ⟨h1, h2⟩ := runFixUpdate_failed env cmd args err hout
    refine ⟨h1, ?_⟩
    rw [h2]
    intro e he'
    have := configEvents_inConfig _ _ _ _ _ he'
    cases e <;> simp_all [Event.inConfig, Event.isWalk]
  · intro hemit
    have hout : ∃ c' uc', configOutcome env cmd args (tables env).loads = .ok c' uc' := by
      cases hw : env.LoadFile (Join [c.RepoRoot, "WORKSPACE"]) with
      | failed err => exact absurd hw (hl err)
      | notExist =>
        have : configOutcome env cmd args (tables env).loads
            = .ok c { uc with repos := addKnownImports env uc.repos fs.knownImports } := by
          simp [configOutcome, hp, hc, hw]
        exact ⟨_, _, this⟩
      | ok workspace =>
        have herr : workspaceFixError env c uc workspace (tables env).loads = none := by
          unfold workspaceFixError
          split
          · rename_i hg
            simp only [fixedWorkspace, hb workspace hw]
            exact hemit workspace hw hg.1 hg.2
          · rfl
        have : configOutcome env cmd args (tables env).loads
            = .ok { c with
                  RepoName := findWorkspaceName (workspaceAfterFix env c workspace (tables env).loads) }
                { uc with
                  repos := addKnownImports env
                    (env.ListRepositories (workspaceAfterFix env c workspace (tables env).loads))
                    fs.knownImports } := by
          simp [configOutcome, hp, hc, hw, herr]
        exact ⟨_, _, this⟩
    obtain ⟨c', uc', hout⟩ := hout
    refine ⟨c', uc', by rw [newFixUpdateConfiguration_snd, hout], ?_, ?_⟩
    · rcases (runFixUpdate_panicked_iff env cmd args c' uc' hout).2 with h | h
      · exact Or.inr h
      · exact Or.inl h
    · intro hk
      have hall : ∀ v ∈ walkVisits env c',
          v.rules.all (hasResolver (tables env).kindToResolver) = true := by
        intro v hv
        rw [List.all_eq_true]
        intro r hr
        exact hasResolver_of_declared env r (hk v hv r hr)
      exact (runFixUpdate_complete env cmd args c' uc' hout hall).1

theorem runFixUpdate_emitter_failure_witness :
    (demoEnv "fix" true ["go_library"]).Parse ["/repo"] = some ⟨"fix", "", "", [], ["/repo"]⟩ ∧
      checkFlags (demoEnv "fix" true ["go_library"]) ⟨"fix", "", "", [], ["/repo"]⟩
          (registerFlags (demoEnv "fix" true ["go_library"]) .updateCmd)
        = .ok ({ demoConfig with RepoName := "", ShouldFix := false }, ⟨.fixFile, "", "", []⟩) ∧
      (runFixUpdate (demoEnv "fix" true ["go_library"]) .updateCmd ["/repo"]).2
        = .returned none := by
  refine ⟨rfl, by decide, ?_⟩
  obtain ⟨c', uc', hcfg, -, h⟩ :=
    (runFixUpdate_emitter_failure (demoEnv "fix" true ["go_library"]) .updateCmd ["/repo"]
      ⟨"fix", "", "", [], ["/repo"]⟩ { demoConfig with RepoName := "", ShouldFix := false }
      ⟨.fixFile, "", "", []⟩ rfl (by decide) (by intro err h; exact absurd h (by simp [demoEnv]))
      (by intro workspace _; rfl)).2
      (by intro workspace _ hs; exact absurd hs (by decide))
  apply h
  have hc' : c' = { demoConfig with ShouldFix := false } := by
    have h1 : (newFixUpdateConfiguration (demoEnv "fix" true ["go_library"]) .updateCmd ["/repo"]
        (tables (demoEnv "fix" true ["go_library"])).loads initState).2
        = .ok { demoConfig with ShouldFix := false } ⟨.fixFile, "", "", []⟩ := by decide
    rw [hcfg] at h1
    simp only [ConfigResult.ok.injEq] at h1
    exact h1.1
  rw [hc']
  decide

/-- C2 fails on the code.  `/repo/..cache` is a cleaned absolute path inside
the tree of the cleaned absolute path `/repo` (the elements of `/repo` are a
prefix of its elements), yet `isDescendingDir` returns false: `filepath.Rel`
yields `..cache`, which `strings.HasPrefix(rel, "..")` takes for a path that
leaves the root.  `CheckFlags` therefore rejects this scope directory with the
"is not a subdirectory of repo root" error. -/
theorem isDescendingDir_rejects_dotdot_name :
    Clean "/repo/..cache" = "/repo/..cache" ∧ Clean "/repo" = "/repo" ∧
      pathElements "/repo" <+: pathElements "/repo/..cache" ∧
      Rel "/repo" "/repo/..cache" = .ok "..cache" ∧
      isDescendingDir "/repo/..cache" "/repo" = false ∧
      updateConfigurer.CheckFlags (demoEnv "fix" false []) ⟨"fix", "", "", [], ["/repo/..cache"]⟩
          ⟨"/repo", "", [], true, ["BUILD"], []⟩
        = .error "dir \"/repo/..cache\" is not a subdirectory of repo root \"/repo\"" := by
  decide

end Gazelle
